import Mathlib

/-!
A shallow embedding of the `TransformSystem` scene-graph core
(`src/systems.rs` of `legion_transform`) and proofs about it.

The `run_now` tick has three stages:
dirty discovery (two change-tracking queries), forest construction
(`explore_tree_dfs` / `explore_dfs`, depth-first with rotation of
already-built trees), and matrix recompute (`rebuild_recursive`).

Entities are modelled as natural numbers; the component store (the
`World`) holds, per entity, an optional `Transform` component, an
optional parent tag and the two change-tracking flags that the store's
`changed` query filters expose.  Matrix algebra is kept abstract: a
`Mat4Ops` record supplies multiplication and the three constructors
used by the local-matrix computation.
-/

abbrev Entity := Nat

/-- The `Transform` component: translation / rotation / scale plus the
derived `global_matrix`, the only field the core writes. -/
structure Transform (V Q M : Type) where
  translation : V
  rotation : Q
  scale : V
  global_matrix : M

/-- External math library interface: matrix multiplication and the
constructors of the three factor matrices of a local matrix. -/
structure Mat4Ops (V Q M : Type) where
  mul : M → M → M
  translateM : V → M
  rotateM : Q → M
  scaleM : V → M

/-- Modelled from the spec: `Transform::matrix` lives in the missing
`components` module; per the spec the local matrix is
`translate(translation) * rotate(rotation) * scale(scale)`. -/
def Transform.matrix {V Q M : Type} (ops : Mat4Ops V Q M) (t : Transform V Q M) : M :=
  ops.mul (ops.mul (ops.translateM t.translation) (ops.rotateM t.rotation)) (ops.scaleM t.scale)

/-- The component store snapshot a tick runs against.  `changedParent`
and `changedTransform` are modelled from the spec: the store's
change-tracking is a black box that reports, per entity, whether the
parent tag respectively the `Transform` was written since last
observed. -/
structure World (V Q M : Type) where
  entities : List Entity
  transform : Entity → Option (Transform V Q M)
  parentTag : Entity → Option Entity
  changedParent : Entity → Bool
  changedTransform : Entity → Bool

variable {V Q M : Type}

/-- The first discovery query of `run_now`: entities holding a
`Transform` component and a `Parent` tag, filtered by
`changed::<Tagged<Parent>>()`. -/
def changedParentQuery (w : World V Q M) : List Entity :=
  w.entities.filter (fun e => (w.transform e).isSome && (w.parentTag e).isSome && w.changedParent e)

/-- The second discovery query of `run_now`: entities holding a
`Transform` component, filtered by `changed::<Transform>()`. -/
def changedTransformQuery (w : World V Q M) : List Entity :=
  w.entities.filter (fun e => (w.transform e).isSome && w.changedTransform e)

/-- The candidate sequence offered to forest construction: the first
query's results followed by the second query's. -/
def candidates (w : World V Q M) : List Entity :=
  changedParentQuery w ++ changedTransformQuery w

/-- The children query used by `explore_dfs`: entities holding a
`Transform` whose parent tag currently equals `p` (live lookup). -/
def childrenOf (w : World V Q M) (p : Entity) : List Entity :=
  w.entities.filter (fun e => (w.transform e).isSome && w.parentTag e == some p)

/-- The per-tick tree node: an entity and its child subtrees. -/
inductive TreeNode : Type where
  | node : Entity → List TreeNode → TreeNode
deriving Repr

/-- The entity stored at a node. -/
def TreeNode.entity : TreeNode → Entity
  | .node e _ => e

/-- The forest: the `HashMap<Entity, TreeNode>` of root entities,
modelled as an association list in insertion order. -/
abbrev Forest := List (Entity × TreeNode)

/-- Model of `HashMap::remove`: take the tree keyed `k` out of the forest,
returning it together with the remaining forest. -/
def kvTake (k : Entity) : Forest → Option (TreeNode × Forest)
  | [] => none
  | (k', t) :: rest =>
    if k' = k then some (t, rest)
    else
      match kvTake k rest with
      | none => none
      | some (t', rest') => some (t', (k', t) :: rest')

/-- Model of `HashMap::insert`: replace any entry keyed `k` and append the new
binding. -/
def kvInsert (f : Forest) (k : Entity) (t : TreeNode) : Forest :=
  f.filter (fun p => !(p.1 == k)) ++ [(k, t)]

mutual
/-- All entities of a tree, root first, depth first. -/
def treeEntities : TreeNode → List Entity
  | .node e cs => e :: treeListEntities cs
/-- All entities of a list of trees. -/
def treeListEntities : List TreeNode → List Entity
  | [] => []
  | t :: ts => treeEntities t ++ treeListEntities ts
end

/-- All entities appearing in the forest, over all trees. -/
def forestEntities (f : Forest) : List Entity :=
  treeListEntities (f.map Prod.snd)

/-- Number of store entities not yet in the visited set; the measure
that bounds the recursion of `explore_dfs`. -/
def unvisitedCount (w : World V Q M) (visited : List Entity) : Nat :=
  (w.entities.filter (fun e => !decide (e ∈ visited))).length

theorem length_filter_le_of_imp {p q : Nat → Bool} (l : List Nat)
    (h : ∀ a, p a = true → q a = true) :
    (l.filter p).length ≤ (l.filter q).length := by
  induction l with
  | nil => simp
  | cons a t ih =>
    by_cases hp : p a = true
    · simp [List.filter_cons, hp, h a hp]
      omega
    · simp only [List.filter_cons]
      rw [Bool.not_eq_true] at hp
      simp only [hp, Bool.false_eq_true, if_false]
      by_cases hq : q a = true
      · simp [hq]; omega
      · rw [Bool.not_eq_true] at hq
        simp [hq]; omega

theorem length_filter_lt_of_imp {p q : Nat → Bool} (l : List Nat)
    (h : ∀ a, p a = true → q a = true)
    (c : Nat) (hc : c ∈ l) (hq : q c = true) (hp : p c = false) :
    (l.filter p).length < (l.filter q).length := by
  induction l with
  | nil => cases hc
  | cons a t ih =>
    rcases List.mem_cons.mp hc with rfl | hct
    · simp only [List.filter_cons, hp, Bool.false_eq_true, if_false, hq, if_true]
      have := @length_filter_le_of_imp p q t h
      simp only [List.length_cons]
      omega
    · by_cases hpa : p a = true
      · simp only [List.filter_cons, hpa, h a hpa, if_true, List.length_cons]
        exact Nat.succ_lt_succ (ih hct)
      · rw [Bool.not_eq_true] at hpa
        simp only [List.filter_cons, hpa, Bool.false_eq_true, if_false]
        by_cases hqa : q a = true
        · simp only [hqa, if_true, List.length_cons]
          exact Nat.lt_succ_of_lt (ih hct)
        · rw [Bool.not_eq_true] at hqa
          simp only [hqa, Bool.false_eq_true, if_false]
          exact ih hct

theorem unvisitedCount_append_le (w : World V Q M) (l visited : List Entity) :
    unvisitedCount w (l ++ visited) ≤ unvisitedCount w visited := by
  apply length_filter_le_of_imp
  intro a ha
  simp only [Bool.not_eq_true', decide_eq_false_iff_not, List.mem_append, not_or] at ha ⊢
  exact ha.2

theorem unvisitedCount_cons_lt (w : World V Q M) (c : Entity) (visited : List Entity)
    (hc : c ∈ w.entities) (hcv : ¬ c ∈ visited) :
    unvisitedCount w (c :: visited) < unvisitedCount w visited := by
  refine length_filter_lt_of_imp w.entities ?_ c hc (by simp [hcv]) (by simp)
  intro a ha
  simp only [Bool.not_eq_true', decide_eq_false_iff_not, List.mem_cons, not_or] at ha ⊢
  exact ha.2

theorem childrenOf_length_le (w : World V Q M) (p : Entity) :
    (childrenOf w p).length ≤ w.entities.length :=
  List.length_filter_le _ _

/-- The child loop of `explore_dfs`, iterating the children query's
results.  Per child: if it is a forest root, splice that tree in and
stop (the Rust `return`); if it is visited, stop; otherwise mark it
visited, explore it recursively and attach the resulting node.
Returns the accumulated children of the node under construction, the
updated forest, and the entities newly marked visited (to be added in
front of the input visited list). -/
def exploreLoop (w : World V Q M) (children : List Entity)
    (h : ∀ c ∈ children, c ∈ w.entities) (acc : List TreeNode)
    (forest : Forest) (visited : List Entity) :
    List TreeNode × Forest × List Entity :=
  match children with
  | [] => (acc, forest, [])
  | c :: rest =>
    match kvTake c forest with
    | some (tree, forest') => (acc ++ [tree], forest', [])
    | none =>
      if hcv : c ∈ visited then (acc, forest, [])
      else
        let r := exploreLoop w (childrenOf w c)
          (fun x hx => List.mem_of_mem_filter hx) [] forest (c :: visited)
        let r2 := exploreLoop w rest
          (fun x hx => h x (List.mem_cons_of_mem c hx))
          (acc ++ [TreeNode.node c r.1]) r.2.1 (r.2.2 ++ c :: visited)
        (r2.1, r2.2.1, r2.2.2 ++ r.2.2 ++ [c])
termination_by unvisitedCount w visited * (w.entities.length + 1) + children.length
decreasing_by
  · have h1 : unvisitedCount w (c :: visited) < unvisitedCount w visited :=
      unvisitedCount_cons_lt w c visited (h c (List.mem_cons_self c rest)) hcv
    have h2 : (childrenOf w c).length ≤ w.entities.length := childrenOf_length_le w c
    have h3 : unvisitedCount w (c :: visited) * (w.entities.length + 1)
        + (childrenOf w c).length
        < (unvisitedCount w (c :: visited) + 1) * (w.entities.length + 1) := by
      nlinarith
    calc unvisitedCount w (c :: visited) * (w.entities.length + 1) + (childrenOf w c).length
        < (unvisitedCount w (c :: visited) + 1) * (w.entities.length + 1) := h3
      _ ≤ unvisitedCount w visited * (w.entities.length + 1) := by
          exact Nat.mul_le_mul_right _ h1
      _ ≤ unvisitedCount w visited * (w.entities.length + 1) + (c :: rest).length := by omega
  · have key : ∀ l : List Entity,
        unvisitedCount w (l ++ c :: visited) ≤ unvisitedCount w visited := by
      intro l
      refine le_trans (unvisitedCount_append_le w l (c :: visited)) ?_
      simpa using unvisitedCount_append_le w [c] visited
    simp only [List.length_cons]
    exact Nat.lt_of_le_of_lt
      (Nat.add_le_add_right (Nat.mul_le_mul_right _ (key _)) rest.length)
      (by omega)

/-- Model of `TransformSystem::explore_tree_dfs`: skip a visited candidate;
otherwise explore it depth first, insert the resulting tree into the
forest keyed by the candidate and mark the candidate visited. -/
def explore_tree_dfs (w : World V Q M) (e : Entity) (forest : Forest)
    (visited : List Entity) : Forest × List Entity :=
  if e ∈ visited then (forest, visited)
  else
    let r := exploreLoop w (childrenOf w e)
      (fun x hx => List.mem_of_mem_filter hx) [] forest visited
    (kvInsert r.2.1 e (TreeNode.node e r.1), e :: (r.2.2 ++ visited))

/-- Forest construction over a given candidate sequence. -/
def buildForestOn (w : World V Q M) (cs : List Entity) : Forest × List Entity :=
  cs.foldl (fun s e => explore_tree_dfs w e s.1 s.2) ([], [])

/-- Forest construction as `run_now` performs it: the changed-parent
query's candidates first, then the changed-transform query's. -/
def buildForest (w : World V Q M) : Forest × List Entity :=
  buildForestOn w (candidates w)

/-- Compose an optional parent matrix with a local matrix: with a
parent the product `parent * local`, without it the local matrix. -/
def applyPM (ops : Mat4Ops V Q M) (pm : Option M) (l : M) : M :=
  match pm with
  | none => l
  | some m => ops.mul m l

/-- Write `m` into the `global_matrix` field of `e`'s `Transform`,
leaving every other component and field unchanged. -/
def writeGlobal (w : World V Q M) (e : Entity) (m : M) : World V Q M :=
  { w with transform := fun x =>
      if x = e then (w.transform x).map (fun t => { t with global_matrix := m })
      else w.transform x }

mutual
/-- Model of `TransformSystem::rebuild_recursive`: read the node's `Transform`
(`unwrap`, i.e. `none` aborts the tick), write
`global_matrix := parent_matrix * local` (or just the local matrix for
a root), then recurse into the children with the written matrix. -/
def rebuild_recursive (ops : Mat4Ops V Q M) :
    TreeNode → Option M → World V Q M → Option (World V Q M)
  | .node e cs, pm, w =>
    match w.transform e with
    | none => none
    | some t =>
      let g := applyPM ops pm (t.matrix ops)
      rebuildChildren ops cs (some g) (writeGlobal w e g)
/-- The `for_each` of `rebuild_recursive` over a node's children. -/
def rebuildChildren (ops : Mat4Ops V Q M) :
    List TreeNode → Option M → World V Q M → Option (World V Q M)
  | [], _, w => some w
  | t :: ts, pm, w =>
    match rebuild_recursive ops t pm w with
    | none => none
    | some w' => rebuildChildren ops ts pm w'
end

/-- The final loop of `run_now`: rebuild every tree of the forest with
no parent matrix. -/
def rebuildForest (ops : Mat4Ops V Q M) :
    List TreeNode → World V Q M → Option (World V Q M)
  | [], w => some w
  | t :: ts, w =>
    match rebuild_recursive ops t none w with
    | none => none
    | some w' => rebuildForest ops ts w'

/-- Model of `TransformSystem::run_now`: build the forest from the two
discovery queries, then rebuild the global matrix of every tree.
`none` models the `unwrap` panic on a missing `Transform`. -/
def run_now (ops : Mat4Ops V Q M) (w : World V Q M) : Option (World V Q M) :=
  rebuildForest ops ((buildForest w).1.map Prod.snd) w

/-- Fuel-indexed mirror of `exploreLoop`, structurally recursive on
the fuel; with enough fuel it coincides with `exploreLoop`
(`exploreLoopF_eq`), which makes the bound on the recursion explicit
and the function kernel-evaluable. -/
def exploreLoopF (w : World V Q M) :
    Nat → List Entity → List TreeNode → Forest → List Entity →
    List TreeNode × Forest × List Entity
  | 0, _, acc, forest, _ => (acc, forest, [])
  | fuel + 1, children, acc, forest, visited =>
    match children with
    | [] => (acc, forest, [])
    | c :: rest =>
      match kvTake c forest with
      | some (tree, forest') => (acc ++ [tree], forest', [])
      | none =>
        if c ∈ visited then (acc, forest, [])
        else
          let r := exploreLoopF w fuel (childrenOf w c) [] forest (c :: visited)
          let r2 := exploreLoopF w fuel rest
            (acc ++ [TreeNode.node c r.1]) r.2.1 (r.2.2 ++ c :: visited)
          (r2.1, r2.2.1, r2.2.2 ++ r.2.2 ++ [c])

/-- Fuel-indexed mirror of `explore_tree_dfs`. -/
def explore_tree_dfsF (w : World V Q M) (fuel : Nat) (e : Entity) (forest : Forest)
    (visited : List Entity) : Forest × List Entity :=
  if e ∈ visited then (forest, visited)
  else
    let r := exploreLoopF w fuel (childrenOf w e) [] forest visited
    (kvInsert r.2.1 e (TreeNode.node e r.1), e :: (r.2.2 ++ visited))

/-- Fuel-indexed forest construction over a candidate sequence. -/
def buildForestOnF (w : World V Q M) (fuel : Nat) (cs : List Entity) :
    Forest × List Entity :=
  cs.foldl (fun s e => explore_tree_dfsF w fuel e s.1 s.2) ([], [])

/-- Fuel-indexed mirror of `buildForest`. -/
def buildForestF (w : World V Q M) (fuel : Nat) : Forest × List Entity :=
  buildForestOnF w fuel (candidates w)

/-- Fuel-indexed mirror of `run_now`. -/
def run_nowF (ops : Mat4Ops V Q M) (w : World V Q M) (fuel : Nat) :
    Option (World V Q M) :=
  rebuildForest ops ((buildForestF w fuel).1.map Prod.snd) w

theorem exploreLoopF_eq (w : World V Q M) (children : List Entity)
    (h : ∀ c ∈ children, c ∈ w.entities) (acc : List TreeNode)
    (forest : Forest) (visited : List Entity) :
    ∀ fuel, unvisitedCount w visited * (w.entities.length + 1) + children.length < fuel →
    exploreLoopF w fuel children acc forest visited
      = exploreLoop w children h acc forest visited := by
  induction children, h, acc, forest, visited using exploreLoop.induct w with
  | case1 acc forest visited h hmem =>
    intro fuel hf
    cases fuel with
    | zero => omega
    | succ f => rw [exploreLoop.eq_def]; simp [exploreLoopF]
  | case2 acc forest visited c rest h tree forest' hkv hmem =>
    intro fuel hf
    cases fuel with
    | zero => omega
    | succ f => rw [exploreLoop.eq_def]; simp [exploreLoopF, hkv]
  | case3 acc forest visited c rest h hkv hcv hmem =>
    intro fuel hf
    cases fuel with
    | zero => omega
    | succ f => rw [exploreLoop.eq_def]; simp [exploreLoopF, hkv, hcv]
  | case4 acc forest visited c rest h hkv hcv r hmem ih1 ih1' ih2 =>
    intro fuel hf
    cases fuel with
    | zero => omega
    | succ f =>
      have hcE : c ∈ w.entities := h c (List.mem_cons_self c rest)
      have hm1 : unvisitedCount w (c :: visited) * (w.entities.length + 1)
          + (childrenOf w c).length
          < unvisitedCount w visited * (w.entities.length + 1) + (c :: rest).length := by
        have h1 : unvisitedCount w (c :: visited) < unvisitedCount w visited :=
          unvisitedCount_cons_lt w c visited hcE hcv
        have h2 : (childrenOf w c).length ≤ w.entities.length := childrenOf_length_le w c
        have h3 : unvisitedCount w (c :: visited) * (w.entities.length + 1)
            + (childrenOf w c).length
            < (unvisitedCount w (c :: visited) + 1) * (w.entities.length + 1) := by
          nlinarith
        have h4 : (unvisitedCount w (c :: visited) + 1) * (w.entities.length + 1)
            ≤ unvisitedCount w visited * (w.entities.length + 1) :=
          Nat.mul_le_mul_right _ h1
        simp only [List.length_cons]
        omega
      have hm2 : unvisitedCount w (r.2.2 ++ c :: visited) * (w.entities.length + 1)
          ≤ unvisitedCount w visited * (w.entities.length + 1) := by
        refine Nat.mul_le_mul_right _ ?_
        refine le_trans (unvisitedCount_append_le w r.2.2 (c :: visited)) ?_
        simpa using unvisitedCount_append_le w [c] visited
      rw [exploreLoop.eq_def]
      simp only [hkv, exploreLoopF, dif_neg hcv, if_neg hcv]
      rw [ih1 f (by simp only [List.length_cons] at hf hm1; omega)]
      rw [ih2 f (by simp only [List.length_cons] at hf hm1; omega)]

theorem explore_tree_dfsF_eq (w : World V Q M) (fuel : Nat) (e : Entity)
    (forest : Forest) (visited : List Entity)
    (hf : (w.entities.length + 1) * (w.entities.length + 1) ≤ fuel) :
    explore_tree_dfsF w fuel e forest visited = explore_tree_dfs w e forest visited := by
  unfold explore_tree_dfsF explore_tree_dfs
  by_cases hv : e ∈ visited
  · simp [hv]
  · simp only [hv, if_false]
    rw [exploreLoopF_eq w (childrenOf w e) (fun x hx => List.mem_of_mem_filter hx)
      [] forest visited fuel]
    have h1 : unvisitedCount w visited ≤ w.entities.length :=
      List.length_filter_le _ _
    have h2 : (childrenOf w e).length ≤ w.entities.length := childrenOf_length_le w e
    have h3 : unvisitedCount w visited * (w.entities.length + 1)
        ≤ w.entities.length * (w.entities.length + 1) :=
      Nat.mul_le_mul_right _ h1
    nlinarith

theorem buildForestOnF_eq (w : World V Q M) (fuel : Nat) (cs : List Entity)
    (hf : (w.entities.length + 1) * (w.entities.length + 1) ≤ fuel) :
    buildForestOnF w fuel cs = buildForestOn w cs := by
  unfold buildForestOnF buildForestOn
  have key : ∀ (s : Forest × List Entity),
      cs.foldl (fun s e => explore_tree_dfsF w fuel e s.1 s.2) s
        = cs.foldl (fun s e => explore_tree_dfs w e s.1 s.2) s := by
    induction cs with
    | nil => intro s; rfl
    | cons a t ih =>
      intro s
      simp only [List.foldl_cons]
      rw [explore_tree_dfsF_eq w fuel a s.1 s.2 hf]
      exact ih _
  exact key _

theorem buildForestF_eq (w : World V Q M) (fuel : Nat)
    (hf : (w.entities.length + 1) * (w.entities.length + 1) ≤ fuel) :
    buildForestF w fuel = buildForest w :=
  buildForestOnF_eq w fuel (candidates w) hf

theorem run_nowF_eq (ops : Mat4Ops V Q M) (w : World V Q M) (fuel : Nat)
    (hf : (w.entities.length + 1) * (w.entities.length + 1) ≤ fuel) :
    run_nowF ops w fuel = run_now ops w := by
  unfold run_nowF run_now
  rw [buildForestF_eq w fuel hf]

theorem count_cons_eq (a b : Nat) (l : List Nat) :
    (b :: l).count a = l.count a + if a = b then 1 else 0 := by
  rw [List.count_cons]
  by_cases h : a = b
  · simp [h]
  · have h' : ¬ b = a := fun hh => h hh.symm
    simp [h, h']

theorem treeListEntities_append (ts us : List TreeNode) :
    treeListEntities (ts ++ us) = treeListEntities ts ++ treeListEntities us := by
  induction ts with
  | nil => simp [treeListEntities]
  | cons t ts ih => simp [treeListEntities, ih]

theorem forestEntities_cons (p : Entity × TreeNode) (f : Forest) :
    forestEntities (p :: f) = treeEntities p.2 ++ forestEntities f := by
  simp [forestEntities, treeListEntities]

theorem forestEntities_append (f g : Forest) :
    forestEntities (f ++ g) = forestEntities f ++ forestEntities g := by
  unfold forestEntities
  rw [List.map_append, treeListEntities_append]

theorem kvTake_count (k : Entity) (f : Forest) (t : TreeNode) (f' : Forest)
    (h : kvTake k f = some (t, f')) (a : Entity) :
    (forestEntities f).count a = (treeEntities t).count a + (forestEntities f').count a := by
  induction f generalizing f' with
  | nil => simp [kvTake] at h
  | cons p rest ih =>
    obtain ⟨k', t'⟩ := p
    rw [kvTake] at h
    by_cases hk : k' = k
    · rw [if_pos hk] at h
      obtain ⟨rfl, rfl⟩ := Prod.mk.injEq .. ▸ Option.some.injEq .. ▸ h
      rw [forestEntities_cons, List.count_append]
    · rw [if_neg hk] at h
      cases hrec : kvTake k rest with
      | none => rw [hrec] at h; cases h
      | some pr =>
        obtain ⟨t'', rest'⟩ := pr
        rw [hrec] at h
        obtain ⟨rfl, rfl⟩ := Prod.mk.injEq .. ▸ Option.some.injEq .. ▸ h
        rw [forestEntities_cons, forestEntities_cons, List.count_append, List.count_append,
          ih rest' hrec]
        omega

theorem kvTake_sub (k : Entity) (f : Forest) (t : TreeNode) (f' : Forest)
    (h : kvTake k f = some (t, f')) : ∀ p ∈ f', p ∈ f := by
  induction f generalizing f' with
  | nil => simp [kvTake] at h
  | cons q rest ih =>
    obtain ⟨k', t'⟩ := q
    rw [kvTake] at h
    by_cases hk : k' = k
    · rw [if_pos hk] at h
      obtain ⟨rfl, rfl⟩ := Prod.mk.injEq .. ▸ Option.some.injEq .. ▸ h
      intro p hp
      exact List.mem_cons_of_mem _ hp
    · rw [if_neg hk] at h
      cases hrec : kvTake k rest with
      | none => rw [hrec] at h; cases h
      | some pr =>
        obtain ⟨t'', rest'⟩ := pr
        rw [hrec] at h
        obtain ⟨rfl, rfl⟩ := Prod.mk.injEq .. ▸ Option.some.injEq .. ▸ h
        intro p hp
        rcases List.mem_cons.mp hp with rfl | hp'
        · exact List.mem_cons_self _ _
        · exact List.mem_cons_of_mem _ (ih rest' hrec p hp')

theorem mem_childrenOf {w : World V Q M} {c p : Entity} (h : c ∈ childrenOf w p) :
    c ∈ w.entities ∧ (w.transform c).isSome ∧ w.parentTag c = some p := by
  unfold childrenOf at h
  rw [List.mem_filter] at h
  refine ⟨h.1, ?_, ?_⟩
  · have := h.2
    simp only [Bool.and_eq_true] at this
    exact this.1
  · have := h.2
    simp only [Bool.and_eq_true, beq_iff_eq] at this
    exact this.2

/-- One allowed step of an acyclicity certificate: a parent's rank is
strictly below the child's. -/
def rankOk (rank : Entity → Nat) (c : Entity) : Option Entity → Bool
  | none => true
  | some p => decide (rank p < rank c)

/-- Acyclicity certificate for the parent-relation graph: a rank
function that strictly decreases from child to parent.  A graph with a
cycle among the store's entities allows no such function. -/
def ParentRank (w : World V Q M) (rank : Entity → Nat) : Prop :=
  ∀ c ∈ w.entities, rankOk rank c (w.parentTag c) = true

instance (w : World V Q M) (rank : Entity → Nat) : Decidable (ParentRank w rank) :=
  inferInstanceAs (Decidable (∀ c ∈ w.entities, rankOk rank c (w.parentTag c) = true))

theorem parentRank_lt {w : World V Q M} {rank : Entity → Nat}
    (hr : ParentRank w rank) {c p : Entity}
    (hc : c ∈ w.entities) (hp : w.parentTag c = some p) : rank p < rank c := by
  have := hr c hc
  rw [hp] at this
  simpa [rankOk] using this

/-- The combined occurrence count of an entity across the forest under
construction, the accumulated children of the node being explored, and
a list of pending in-flight entities. -/
def cnt3 (f : Forest) (acc : List TreeNode) (P : List Entity) (a : Entity) : Nat :=
  (forestEntities f).count a + (treeListEntities acc).count a + P.count a

theorem exploreLoop_nil (w : World V Q M) (h : ∀ c ∈ ([] : List Entity), c ∈ w.entities)
    (acc : List TreeNode) (forest : Forest) (visited : List Entity) :
    exploreLoop w [] h acc forest visited = (acc, forest, []) := by
  rw [exploreLoop.eq_def]

theorem exploreLoop_cons_take (w : World V Q M) (c : Entity) (rest : List Entity)
    (h : ∀ x ∈ c :: rest, x ∈ w.entities) (acc : List TreeNode) (forest : Forest)
    (visited : List Entity) (tree : TreeNode) (forest' : Forest)
    (hkv : kvTake c forest = some (tree, forest')) :
    exploreLoop w (c :: rest) h acc forest visited = (acc ++ [tree], forest', []) := by
  rw [exploreLoop.eq_def]
  simp [hkv]

theorem exploreLoop_cons_visited (w : World V Q M) (c : Entity) (rest : List Entity)
    (h : ∀ x ∈ c :: rest, x ∈ w.entities) (acc : List TreeNode) (forest : Forest)
    (visited : List Entity) (hkv : kvTake c forest = none) (hcv : c ∈ visited) :
    exploreLoop w (c :: rest) h acc forest visited = (acc, forest, []) := by
  rw [exploreLoop.eq_def]
  simp [hkv, hcv]

theorem exploreLoop_cons_none (w : World V Q M) (c : Entity) (rest : List Entity)
    (h : ∀ x ∈ c :: rest, x ∈ w.entities) (acc : List TreeNode) (forest : Forest)
    (visited : List Entity) (hkv : kvTake c forest = none) (hcv : c ∉ visited) :
    exploreLoop w (c :: rest) h acc forest visited =
      ((exploreLoop w rest (fun x hx => h x (List.mem_cons_of_mem c hx))
          (acc ++ [TreeNode.node c
            (exploreLoop w (childrenOf w c) (fun x hx => List.mem_of_mem_filter hx)
              [] forest (c :: visited)).1])
          (exploreLoop w (childrenOf w c) (fun x hx => List.mem_of_mem_filter hx)
              [] forest (c :: visited)).2.1
          ((exploreLoop w (childrenOf w c) (fun x hx => List.mem_of_mem_filter hx)
              [] forest (c :: visited)).2.2 ++ c :: visited)).1,
       (exploreLoop w rest (fun x hx => h x (List.mem_cons_of_mem c hx))
          (acc ++ [TreeNode.node c
            (exploreLoop w (childrenOf w c) (fun x hx => List.mem_of_mem_filter hx)
              [] forest (c :: visited)).1])
          (exploreLoop w (childrenOf w c) (fun x hx => List.mem_of_mem_filter hx)
              [] forest (c :: visited)).2.1
          ((exploreLoop w (childrenOf w c) (fun x hx => List.mem_of_mem_filter hx)
              [] forest (c :: visited)).2.2 ++ c :: visited)).2.1,
       (exploreLoop w rest (fun x hx => h x (List.mem_cons_of_mem c hx))
          (acc ++ [TreeNode.node c
            (exploreLoop w (childrenOf w c) (fun x hx => List.mem_of_mem_filter hx)
              [] forest (c :: visited)).1])
          (exploreLoop w (childrenOf w c) (fun x hx => List.mem_of_mem_filter hx)
              [] forest (c :: visited)).2.1
          ((exploreLoop w (childrenOf w c) (fun x hx => List.mem_of_mem_filter hx)
              [] forest (c :: visited)).2.2 ++ c :: visited)).2.2
         ++ (exploreLoop w (childrenOf w c) (fun x hx => List.mem_of_mem_filter hx)
              [] forest (c :: visited)).2.2 ++ [c]) := by
  rw [exploreLoop.eq_def]
  simp only [hkv, dif_neg hcv]

/-- The central invariant of forest construction.  Along the child
loop, the combined multiset of entities over (forest, accumulated
children, pending in-flight entities) stays duplicate-free, the
visited set is exactly its support, every newly visited entity ranks
strictly above the bound dominating the children being iterated, and
the forest only loses entries. -/
theorem exploreLoop_master (w : World V Q M) (rank : Entity → Nat)
    (hr : ParentRank w rank) :
    ∀ (n : Nat) (children : List Entity) (h : ∀ c ∈ children, c ∈ w.entities)
      (acc : List TreeNode) (forest : Forest) (visited : List Entity)
      (b : Nat) (P : List Entity),
      unvisitedCount w visited * (w.entities.length + 1) + children.length < n →
      (∀ c ∈ children, b < rank c) →
      (∀ a, cnt3 forest acc P a ≤ 1) →
      (∀ x, x ∈ visited ↔ 0 < cnt3 forest acc P x) →
      (∀ a, cnt3 (exploreLoop w children h acc forest visited).2.1
          (exploreLoop w children h acc forest visited).1 P a ≤ 1)
      ∧ (∀ x, x ∈ (exploreLoop w children h acc forest visited).2.2 ++ visited ↔
          0 < cnt3 (exploreLoop w children h acc forest visited).2.1
            (exploreLoop w children h acc forest visited).1 P x)
      ∧ (∀ x ∈ (exploreLoop w children h acc forest visited).2.2, b < rank x)
      ∧ (∀ p ∈ (exploreLoop w children h acc forest visited).2.1, p ∈ forest) := by
  intro n
  induction n using Nat.strong_induction_on with
  | _ n IH =>
    intro children h acc forest visited b P hn hb hnd hv
    match children with
    | [] =>
      rw [exploreLoop_nil]
      refine ⟨hnd, ?_, ?_, fun p hp => hp⟩
      · intro x
        simpa using hv x
      · intro x hx
        simp at hx
    | c :: rest =>
      cases hkv : kvTake c forest with
      | some pr =>
        obtain ⟨tree, forest'⟩ := pr
        rw [exploreLoop_cons_take w c rest h acc forest visited tree forest' hkv]
        have hcnt : ∀ a, cnt3 forest' (acc ++ [tree]) P a = cnt3 forest acc P a := by
          intro a
          unfold cnt3
          rw [treeListEntities_append, List.count_append,
            kvTake_count c forest tree forest' hkv a]
          simp only [treeListEntities, List.count_append, List.count_nil]
          omega
        refine ⟨?_, ?_, ?_, kvTake_sub c forest tree forest' hkv⟩
        · intro a
          rw [hcnt a]
          exact hnd a
        · intro x
          rw [hcnt x]
          simpa using hv x
        · intro x hx
          simp at hx
      | none =>
        by_cases hcv : c ∈ visited
        · rw [exploreLoop_cons_visited w c rest h acc forest visited hkv hcv]
          refine ⟨hnd, ?_, ?_, fun p hp => hp⟩
          · intro x
            simpa using hv x
          · intro x hx
            simp at hx
        · rw [exploreLoop_cons_none w c rest h acc forest visited hkv hcv]
          dsimp only
          have hcE : c ∈ w.entities := h c (List.mem_cons_self c rest)
          have hbc : b < rank c := hb c (List.mem_cons_self c rest)
          have hb1 : ∀ x ∈ childrenOf w c, rank c < rank x := by
            intro x hx
            obtain ⟨hxe, _, hxp⟩ := mem_childrenOf hx
            exact parentRank_lt hr hxe hxp
          have hcnt1 : ∀ a, cnt3 forest [] (c :: (treeListEntities acc ++ P)) a
              = cnt3 forest acc P a + (if a = c then 1 else 0) := by
            intro a
            unfold cnt3
            rw [count_cons_eq, List.count_append]
            simp only [treeListEntities, List.count_nil]
            omega
          have hc0 : cnt3 forest acc P c = 0 := by
            by_contra hne
            exact hcv ((hv c).mpr (Nat.pos_of_ne_zero hne))
          have hnd1 : ∀ a, cnt3 forest [] (c :: (treeListEntities acc ++ P)) a ≤ 1 := by
            intro a
            rw [hcnt1 a]
            by_cases hac : a = c
            · subst hac
              simp [hc0]
            · rw [if_neg hac]
              have := hnd a
              omega
          have hv1 : ∀ x, x ∈ c :: visited ↔
              0 < cnt3 forest [] (c :: (treeListEntities acc ++ P)) x := by
            intro x
            rw [hcnt1 x]
            by_cases hxc : x = c
            · subst hxc
              simp
            · have hmem : (x ∈ c :: visited) ↔ x ∈ visited := by
                simp [List.mem_cons, hxc]
              rw [hmem, if_neg hxc, Nat.add_zero]
              exact hv x
          have hm1 : unvisitedCount w (c :: visited) * (w.entities.length + 1)
              + (childrenOf w c).length
              < unvisitedCount w visited * (w.entities.length + 1) + (c :: rest).length := by
            have h1 : unvisitedCount w (c :: visited) < unvisitedCount w visited :=
              unvisitedCount_cons_lt w c visited hcE hcv
            have h2 : (childrenOf w c).length ≤ w.entities.length := childrenOf_length_le w c
            have h3 : unvisitedCount w (c :: visited) * (w.entities.length + 1)
                + (childrenOf w c).length
                < (unvisitedCount w (c :: visited) + 1) * (w.entities.length + 1) := by
              nlinarith
            have h4 : (unvisitedCount w (c :: visited) + 1) * (w.entities.length + 1)
                ≤ unvisitedCount w visited * (w.entities.length + 1) :=
              Nat.mul_le_mul_right _ h1
            simp only [List.length_cons]
            omega
          obtain ⟨i1, ii1, iii1, iv1⟩ :=
            IH (unvisitedCount w visited * (w.entities.length + 1) + (c :: rest).length) hn
              (childrenOf w c) (fun x hx => List.mem_of_mem_filter hx) [] forest
              (c :: visited) (rank c) (c :: (treeListEntities acc ++ P)) hm1 hb1 hnd1 hv1
          have hcnt2 : ∀ a, cnt3
              (exploreLoop w (childrenOf w c) (fun x hx => List.mem_of_mem_filter hx)
                [] forest (c :: visited)).2.1
              (acc ++ [TreeNode.node c
                (exploreLoop w (childrenOf w c) (fun x hx => List.mem_of_mem_filter hx)
                  [] forest (c :: visited)).1]) P a
              = cnt3
                (exploreLoop w (childrenOf w c) (fun x hx => List.mem_of_mem_filter hx)
                  [] forest (c :: visited)).2.1
                (exploreLoop w (childrenOf w c) (fun x hx => List.mem_of_mem_filter hx)
                  [] forest (c :: visited)).1
                (c :: (treeListEntities acc ++ P)) a := by
            intro a
            unfold cnt3
            rw [treeListEntities_append, List.count_append, count_cons_eq, List.count_append]
            simp only [treeListEntities, treeEntities, List.count_append, List.count_nil,
              count_cons_eq]
            omega
          have hm2 : unvisitedCount w
                ((exploreLoop w (childrenOf w c) (fun x hx => List.mem_of_mem_filter hx)
                  [] forest (c :: visited)).2.2 ++ c :: visited) * (w.entities.length + 1)
                + rest.length
              < unvisitedCount w visited * (w.entities.length + 1) + (c :: rest).length := by
            have key : unvisitedCount w
                ((exploreLoop w (childrenOf w c) (fun x hx => List.mem_of_mem_filter hx)
                  [] forest (c :: visited)).2.2 ++ c :: visited)
                ≤ unvisitedCount w visited := by
              refine le_trans (unvisitedCount_append_le w _ (c :: visited)) ?_
              simpa using unvisitedCount_append_le w [c] visited
            have := Nat.mul_le_mul_right (w.entities.length + 1) key
            simp only [List.length_cons]
            omega
          obtain ⟨i2, ii2, iii2, iv2⟩ :=
            IH (unvisitedCount w visited * (w.entities.length + 1) + (c :: rest).length) hn
              rest (fun x hx => h x (List.mem_cons_of_mem c hx))
              (acc ++ [TreeNode.node c
                (exploreLoop w (childrenOf w c) (fun x hx => List.mem_of_mem_filter hx)
                  [] forest (c :: visited)).1])
              (exploreLoop w (childrenOf w c) (fun x hx => List.mem_of_mem_filter hx)
                  [] forest (c :: visited)).2.1
              ((exploreLoop w (childrenOf w c) (fun x hx => List.mem_of_mem_filter hx)
                  [] forest (c :: visited)).2.2 ++ c :: visited)
              b P hm2 (fun x hx => hb x (List.mem_cons_of_mem c hx))
              (fun a => by rw [hcnt2 a]; exact i1 a)
              (fun x => by rw [hcnt2 x]; exact ii1 x)
          refine ⟨?_, ?_, ?_, ?_⟩
          · intro a
            exact i2 a
          · intro x
            have base := ii2 x
            rw [← base]
            simp only [List.mem_append, List.mem_cons, List.mem_singleton]
            tauto
          · intro x hx
            simp only [List.mem_append, List.mem_singleton] at hx
            rcases hx with (hx2 | hx1) | rfl
            · exact iii2 x hx2
            · exact lt_trans hbc (iii1 x hx1)
            · exact hbc
          · intro p hp
            exact iv1 p (iv2 p hp)

theorem entity_mem_treeEntities (t : TreeNode) : t.entity ∈ treeEntities t := by
  cases t with
  | node e cs => simp [treeEntities, TreeNode.entity]

theorem mem_forestEntities_of_mem_tree {f : Forest} {p : Entity × TreeNode}
    (hp : p ∈ f) {x : Entity} (hx : x ∈ treeEntities p.2) : x ∈ forestEntities f := by
  induction f with
  | nil => cases hp
  | cons q rest ih =>
    rw [forestEntities_cons, List.mem_append]
    rcases List.mem_cons.mp hp with rfl | hp'
    · exact Or.inl hx
    · exact Or.inr (ih hp')

theorem kvInsert_not_key (f : Forest) (k : Entity) (t : TreeNode)
    (h : ∀ p ∈ f, p.1 ≠ k) : kvInsert f k t = f ++ [(k, t)] := by
  unfold kvInsert
  congr 1
  rw [List.filter_eq_self]
  intro p hp
  simpa using h p hp

theorem cnt3_empty (f : Forest) (a : Entity) :
    cnt3 f [] [] a = (forestEntities f).count a := by
  unfold cnt3
  simp [treeListEntities]

/-- The invariant holding between candidates of forest construction:
forest entities are duplicate-free, the visited set is exactly the set
of entities placed in the forest, and every forest entry is keyed by
its tree's root entity. -/
def BoundaryInv (f : Forest) (visited : List Entity) : Prop :=
  (∀ a, (forestEntities f).count a ≤ 1)
  ∧ (∀ x, x ∈ visited ↔ x ∈ forestEntities f)
  ∧ (∀ p ∈ f, p.2.entity = p.1)

theorem explore_tree_dfs_inv (w : World V Q M) (rank : Entity → Nat)
    (hr : ParentRank w rank) (e : Entity) (f : Forest) (visited : List Entity)
    (hbi : BoundaryInv f visited) :
    BoundaryInv (explore_tree_dfs w e f visited).1 (explore_tree_dfs w e f visited).2
    ∧ (∀ x ∈ visited, x ∈ (explore_tree_dfs w e f visited).2)
    ∧ e ∈ (explore_tree_dfs w e f visited).2 := by
  obtain ⟨hnd, hv, hkeys⟩ := hbi
  unfold explore_tree_dfs
  by_cases hev : e ∈ visited
  · simp only [if_pos hev]
    exact ⟨⟨hnd, hv, hkeys⟩, fun x hx => hx, hev⟩
  · simp only [if_neg hev]
    have hb : ∀ c ∈ childrenOf w e, rank e < rank c := by
      intro c hc
      obtain ⟨hce, _, hcp⟩ := mem_childrenOf hc
      exact parentRank_lt hr hce hcp
    have hnd' : ∀ a, cnt3 f [] [] a ≤ 1 := by
      intro a
      rw [cnt3_empty]
      exact hnd a
    have hv' : ∀ x, x ∈ visited ↔ 0 < cnt3 f [] [] x := by
      intro x
      rw [cnt3_empty]
      rw [hv x]
      exact (List.count_pos_iff_mem).symm
    obtain ⟨i, ii, iii, iv⟩ := exploreLoop_master w rank hr
      (unvisitedCount w visited * (w.entities.length + 1) + (childrenOf w e).length + 1)
      (childrenOf w e) (fun x hx => List.mem_of_mem_filter hx) [] f visited
      (rank e) [] (Nat.lt_succ_self _) hb hnd' hv'
    have hne2 : e ∉ (exploreLoop w (childrenOf w e)
        (fun x hx => List.mem_of_mem_filter hx) [] f visited).2.2 := by
      intro hmem
      exact absurd (iii e hmem) (lt_irrefl _)
    have hcnt0 : cnt3 (exploreLoop w (childrenOf w e)
        (fun x hx => List.mem_of_mem_filter hx) [] f visited).2.1
        (exploreLoop w (childrenOf w e)
          (fun x hx => List.mem_of_mem_filter hx) [] f visited).1 [] e = 0 := by
      by_contra hne
      have : e ∈ (exploreLoop w (childrenOf w e)
          (fun x hx => List.mem_of_mem_filter hx) [] f visited).2.2 ++ visited :=
        (ii e).mpr (Nat.pos_of_ne_zero hne)
      rcases List.mem_append.mp this with h1 | h2
      · exact hne2 h1
      · exact hev h2
    have heF : e ∉ forestEntities (exploreLoop w (childrenOf w e)
        (fun x hx => List.mem_of_mem_filter hx) [] f visited).2.1 := by
      intro hmem
      have := List.count_pos_iff_mem.mpr hmem
      unfold cnt3 at hcnt0
      omega
    have heT : e ∉ treeListEntities (exploreLoop w (childrenOf w e)
        (fun x hx => List.mem_of_mem_filter hx) [] f visited).1 := by
      intro hmem
      have := List.count_pos_iff_mem.mpr hmem
      unfold cnt3 at hcnt0
      omega
    have hnotkey : ∀ p ∈ (exploreLoop w (childrenOf w e)
        (fun x hx => List.mem_of_mem_filter hx) [] f visited).2.1, p.1 ≠ e := by
      intro p hp hpe
      have hpf := iv p hp
      have hroot : p.2.entity = p.1 := hkeys p hpf
      have : e ∈ forestEntities f := by
        refine mem_forestEntities_of_mem_tree hpf ?_
        rw [← hpe, ← hroot]
        exact entity_mem_treeEntities p.2
      exact hev ((hv e).mpr this)
    rw [kvInsert_not_key _ _ _ hnotkey]
    have hFnew : ∀ a, (forestEntities ((exploreLoop w (childrenOf w e)
          (fun x hx => List.mem_of_mem_filter hx) [] f visited).2.1
          ++ [(e, TreeNode.node e (exploreLoop w (childrenOf w e)
            (fun x hx => List.mem_of_mem_filter hx) [] f visited).1)])).count a
        = (forestEntities (exploreLoop w (childrenOf w e)
            (fun x hx => List.mem_of_mem_filter hx) [] f visited).2.1).count a
          + (if a = e then 1 else 0)
          + (treeListEntities (exploreLoop w (childrenOf w e)
            (fun x hx => List.mem_of_mem_filter hx) [] f visited).1).count a := by
      intro a
      rw [forestEntities_append, List.count_append]
      have : forestEntities [(e, TreeNode.node e (exploreLoop w (childrenOf w e)
          (fun x hx => List.mem_of_mem_filter hx) [] f visited).1)]
          = e :: treeListEntities (exploreLoop w (childrenOf w e)
            (fun x hx => List.mem_of_mem_filter hx) [] f visited).1 := by
        simp [forestEntities, treeListEntities, treeEntities]
      rw [this, count_cons_eq]
      omega
    refine ⟨⟨?_, ?_, ?_⟩, ?_, ?_⟩
    · intro a
      rw [hFnew a]
      by_cases hae : a = e
      · subst hae
        rw [List.count_eq_zero.mpr heF, List.count_eq_zero.mpr heT]
        simp
      · rw [if_neg hae]
        have := i a
        unfold cnt3 at this
        simp only [List.count_nil] at this
        omega
    · intro x
      rw [List.mem_cons]
      by_cases hxe : x = e
      · subst hxe
        constructor
        · intro _
          rw [forestEntities_append, List.mem_append]
          refine Or.inr ?_
          simp [forestEntities, treeListEntities, treeEntities]
        · intro _
          exact Or.inl rfl
      · simp only [hxe, false_or]
        have hx2 := ii x
        constructor
        · intro hx
          have hpos := (hx2).mp hx
          unfold cnt3 at hpos
          simp only [List.count_nil] at hpos
          rw [forestEntities_append]
          rw [List.mem_append]
          rcases Nat.lt_or_ge 0 ((forestEntities (exploreLoop w (childrenOf w e)
              (fun x hx => List.mem_of_mem_filter hx) [] f visited).2.1).count x) with hF | hF
          · exact Or.inl (List.count_pos_iff_mem.mp hF)
          · refine Or.inr ?_
            have hT : 0 < (treeListEntities (exploreLoop w (childrenOf w e)
                (fun x hx => List.mem_of_mem_filter hx) [] f visited).1).count x := by omega
            have hTmem := List.count_pos_iff_mem.mp hT
            simp [forestEntities, treeListEntities, treeEntities, hxe]
            exact hTmem
        · intro hx
          refine (hx2).mpr ?_
          unfold cnt3
          simp only [List.count_nil]
          rw [forestEntities_append, List.mem_append] at hx
          rcases hx with hF | hT
          · have := List.count_pos_iff_mem.mpr hF
            omega
          · have : x ∈ treeListEntities (exploreLoop w (childrenOf w e)
                (fun x hx => List.mem_of_mem_filter hx) [] f visited).1 := by
              simp only [forestEntities, List.map_cons, List.map_nil, treeListEntities,
                treeEntities, List.append_nil] at hT
              rcases List.mem_cons.mp hT with rfl | hT'
              · exact absurd rfl hxe
              · exact hT'
            have := List.count_pos_iff_mem.mpr this
            omega
    · intro p hp
      rcases List.mem_append.mp hp with hold | hnew
      · exact hkeys p (iv p hold)
      · rcases List.mem_singleton.mp hnew with rfl
        simp [TreeNode.entity]
    · intro x hx
      rw [List.mem_cons]
      exact Or.inr (List.mem_append.mpr (Or.inr hx))
    · exact List.mem_cons_self _ _

theorem buildForestOn_inv (w : World V Q M) (rank : Entity → Nat)
    (hr : ParentRank w rank) (cs : List Entity) :
    ∀ (f : Forest) (visited : List Entity), BoundaryInv f visited →
      BoundaryInv (cs.foldl (fun s e => explore_tree_dfs w e s.1 s.2) (f, visited)).1
        (cs.foldl (fun s e => explore_tree_dfs w e s.1 s.2) (f, visited)).2
      ∧ (∀ x ∈ visited,
          x ∈ (cs.foldl (fun s e => explore_tree_dfs w e s.1 s.2) (f, visited)).2)
      ∧ (∀ e ∈ cs,
          e ∈ (cs.foldl (fun s e => explore_tree_dfs w e s.1 s.2) (f, visited)).2) := by
  induction cs with
  | nil =>
    intro f visited hbi
    exact ⟨hbi, fun x hx => hx, by intro e he; cases he⟩
  | cons c rest ih =>
    intro f visited hbi
    obtain ⟨hbi', hmono, hc⟩ := explore_tree_dfs_inv w rank hr c f visited hbi
    simp only [List.foldl_cons]
    obtain ⟨rbi, rmono, rall⟩ := ih (explore_tree_dfs w c f visited).1
      (explore_tree_dfs w c f visited).2 hbi'
    refine ⟨rbi, ?_, ?_⟩
    · intro x hx
      exact rmono x (hmono x hx)
    · intro e he
      rcases List.mem_cons.mp he with rfl | he'
      · exact rmono e hc
      · exact rall e he'

theorem buildForest_inv (w : World V Q M) (rank : Entity → Nat)
    (hr : ParentRank w rank) :
    BoundaryInv (buildForest w).1 (buildForest w).2
    ∧ ∀ e ∈ candidates w, e ∈ (buildForest w).2 := by
  have hinit : BoundaryInv ([] : Forest) ([] : List Entity) := by
    refine ⟨?_, ?_, ?_⟩
    · intro a
      simp [forestEntities, treeListEntities]
    · intro x
      simp [forestEntities, treeListEntities]
    · intro p hp
      cases hp
  obtain ⟨hbi, _, hall⟩ := buildForestOn_inv w rank hr (candidates w) [] [] hinit
  exact ⟨hbi, hall⟩

/-- The local matrix an entity's current translation/rotation/scale
determines, when the entity has a `Transform`. -/
def localOf (ops : Mat4Ops V Q M) (w : World V Q M) (e : Entity) : Option M :=
  (w.transform e).map (fun t => t.matrix ops)

/-- The entity's stored `global_matrix`, when it has a `Transform`. -/
def globalOf (w : World V Q M) (e : Entity) : Option M :=
  (w.transform e).map (fun t => t.global_matrix)

mutual
/-- Specification of matrix recompute on one tree: the node's global
matrix is the optional parent matrix applied to its local matrix (read
from `w0`), and recursively so for the children under the node's
computed matrix — i.e. each parent's matrix is in place before any
child's is derived from it. -/
def GlobalOk (ops : Mat4Ops V Q M) (w0 w' : World V Q M) : TreeNode → Option M → Prop
  | .node e cs, pm =>
    match localOf ops w0 e with
    | none => False
    | some l => globalOf w' e = some (applyPM ops pm l)
        ∧ GlobalOkList ops w0 w' cs (some (applyPM ops pm l))
/-- The predicate `GlobalOk` for every tree of a list, all under the same parent
matrix. -/
def GlobalOkList (ops : Mat4Ops V Q M) (w0 w' : World V Q M) : List TreeNode → Option M → Prop
  | [], _ => True
  | t :: ts, pm => GlobalOk ops w0 w' t pm ∧ GlobalOkList ops w0 w' ts pm
end

/-- What a run of matrix recompute may change: nothing outside `S`,
and within `S` only the `global_matrix` field — entity list, parent
tags, change flags, translation, rotation and scale survive. -/
def FrameOk (w u : World V Q M) (S : List Entity) : Prop :=
  u.entities = w.entities ∧ u.parentTag = w.parentTag
  ∧ u.changedParent = w.changedParent ∧ u.changedTransform = w.changedTransform
  ∧ (∀ e, (u.transform e).map (fun t => t.translation)
      = (w.transform e).map (fun t => t.translation))
  ∧ (∀ e, (u.transform e).map (fun t => t.rotation)
      = (w.transform e).map (fun t => t.rotation))
  ∧ (∀ e, (u.transform e).map (fun t => t.scale)
      = (w.transform e).map (fun t => t.scale))
  ∧ (∀ e, e ∉ S → u.transform e = w.transform e)

theorem frameOk_refl (w : World V Q M) (S : List Entity) : FrameOk w w S :=
  ⟨rfl, rfl, rfl, rfl, fun _ => rfl, fun _ => rfl, fun _ => rfl, fun _ _ => rfl⟩

theorem frameOk_isSome {w u : World V Q M} {S : List Entity} (hf : FrameOk w u S)
    (e : Entity) : (u.transform e).isSome = (w.transform e).isSome := by
  have := hf.2.2.2.2.1 e
  cases hu : u.transform e <;> cases hw : w.transform e <;>
    rw [hu, hw] at this <;> simp_all

theorem frameOk_mono {w u : World V Q M} {S S' : List Entity} (hf : FrameOk w u S)
    (hsub : ∀ e ∈ S, e ∈ S') : FrameOk w u S' := by
  obtain ⟨h1, h2, h3, h4, h5, h6, h7, h8⟩ := hf
  refine ⟨h1, h2, h3, h4, h5, h6, h7, ?_⟩
  intro e he
  exact h8 e (fun hmem => he (hsub e hmem))

theorem frameOk_trans {w u v : World V Q M} {S S' : List Entity}
    (h1 : FrameOk w u S) (h2 : FrameOk u v S') : FrameOk w v (S ++ S') := by
  obtain ⟨a1, a2, a3, a4, a5, a6, a7, a8⟩ := h1
  obtain ⟨b1, b2, b3, b4, b5, b6, b7, b8⟩ := h2
  refine ⟨b1.trans a1, b2.trans a2, b3.trans a3, b4.trans a4,
    fun e => (b5 e).trans (a5 e), fun e => (b6 e).trans (a6 e),
    fun e => (b7 e).trans (a7 e), ?_⟩
  intro e he
  rw [List.mem_append] at he
  push_neg at he
  exact (b8 e he.2).trans (a8 e he.1)

theorem frameOk_localOf {ops : Mat4Ops V Q M} {w u : World V Q M} {S : List Entity}
    (hf : FrameOk w u S) (e : Entity) : localOf ops u e = localOf ops w e := by
  have h5 := hf.2.2.2.2.1 e
  have h6 := hf.2.2.2.2.2.1 e
  have h7 := hf.2.2.2.2.2.2.1 e
  unfold localOf Transform.matrix
  cases hu : u.transform e <;> cases hw : w.transform e <;>
    rw [hu, hw] at h5 h6 h7 <;> simp_all

theorem writeGlobal_frame (w : World V Q M) (e : Entity) (g : M) :
    FrameOk w (writeGlobal w e g) [e] := by
  refine ⟨rfl, rfl, rfl, rfl, ?_, ?_, ?_, ?_⟩
  · intro x
    unfold writeGlobal
    by_cases hx : x = e
    · simp only [hx, if_pos rfl]
      cases w.transform e <;> simp
    · simp [hx]
  · intro x
    unfold writeGlobal
    by_cases hx : x = e
    · simp only [hx, if_pos rfl]
      cases w.transform e <;> simp
    · simp [hx]
  · intro x
    unfold writeGlobal
    by_cases hx : x = e
    · simp only [hx, if_pos rfl]
      cases w.transform e <;> simp
    · simp [hx]
  · intro x hx
    have hxe : x ≠ e := by simpa using hx
    unfold writeGlobal
    simp [hxe]

theorem writeGlobal_globalOf_self (w : World V Q M) (e : Entity) (g : M)
    (hp : (w.transform e).isSome) : globalOf (writeGlobal w e g) e = some g := by
  unfold globalOf writeGlobal
  cases hw : w.transform e with
  | none => rw [hw] at hp; simp at hp
  | some t => simp [hw]

theorem writeGlobal_globalOf_other (w : World V Q M) (e x : Entity) (g : M)
    (hx : x ≠ e) : globalOf (writeGlobal w x g) e = globalOf w e := by
  unfold globalOf writeGlobal
  have hne : ¬ (e = x) := fun h => hx h.symm
  simp [hne]

mutual
theorem rebuild_frame (ops : Mat4Ops V Q M) :
    ∀ (t : TreeNode) (pm : Option M) (w u : World V Q M),
    rebuild_recursive ops t pm w = some u → FrameOk w u (treeEntities t)
  | .node e cs, pm, w, u => by
    intro h
    rw [rebuild_recursive] at h
    cases hw : w.transform e with
    | none => rw [hw] at h; cases h
    | some t0 =>
      rw [hw] at h
      have hf1 := writeGlobal_frame w e (applyPM ops pm (t0.matrix ops))
      have hf2 := rebuildChildren_frame ops cs (some (applyPM ops pm (t0.matrix ops)))
        (writeGlobal w e (applyPM ops pm (t0.matrix ops))) u h
      have := frameOk_trans hf1 hf2
      simpa [treeEntities] using this
theorem rebuildChildren_frame (ops : Mat4Ops V Q M) :
    ∀ (ts : List TreeNode) (pm : Option M) (w u : World V Q M),
    rebuildChildren ops ts pm w = some u → FrameOk w u (treeListEntities ts)
  | [], pm, w, u => by
    intro h
    rw [rebuildChildren] at h
    obtain rfl := Option.some.injEq .. ▸ h
    exact frameOk_refl _ _
  | t :: ts, pm, w, u => by
    intro h
    rw [rebuildChildren] at h
    cases hr : rebuild_recursive ops t pm w with
    | none => rw [hr] at h; cases h
    | some w' =>
      rw [hr] at h
      have hf1 := rebuild_frame ops t pm w w' hr
      have hf2 := rebuildChildren_frame ops ts pm w' u h
      have := frameOk_trans hf1 hf2
      simpa [treeListEntities] using this
end

mutual
theorem rebuild_total (ops : Mat4Ops V Q M) :
    ∀ (t : TreeNode) (pm : Option M) (w : World V Q M),
    (∀ e ∈ treeEntities t, (w.transform e).isSome) →
    (rebuild_recursive ops t pm w).isSome
  | .node e cs, pm, w => by
    intro hp
    rw [rebuild_recursive]
    cases hw : w.transform e with
    | none =>
      have := hp e (by simp [treeEntities])
      rw [hw] at this
      simp at this
    | some t0 =>
      refine rebuildChildren_total ops cs _ _ ?_
      intro x hx
      rw [frameOk_isSome (writeGlobal_frame w e (applyPM ops pm (t0.matrix ops))) x]
      exact hp x (by simp [treeEntities, hx])
theorem rebuildChildren_total (ops : Mat4Ops V Q M) :
    ∀ (ts : List TreeNode) (pm : Option M) (w : World V Q M),
    (∀ e ∈ treeListEntities ts, (w.transform e).isSome) →
    (rebuildChildren ops ts pm w).isSome
  | [], pm, w => by
    intro _
    rw [rebuildChildren]
    rfl
  | t :: ts, pm, w => by
    intro hp
    rw [rebuildChildren]
    have h1 : (rebuild_recursive ops t pm w).isSome := by
      refine rebuild_total ops t pm w ?_
      intro x hx
      exact hp x (by simp [treeListEntities, hx])
    cases hr : rebuild_recursive ops t pm w with
    | none => rw [hr] at h1; simp at h1
    | some w' =>
      refine rebuildChildren_total ops ts pm w' ?_
      intro x hx
      rw [frameOk_isSome (rebuild_frame ops t pm w w' hr) x]
      exact hp x (by simp [treeListEntities, hx])
end

mutual
theorem rebuild_fail (ops : Mat4Ops V Q M) :
    ∀ (t : TreeNode) (pm : Option M) (w : World V Q M) (e0 : Entity),
    e0 ∈ treeEntities t → w.transform e0 = none →
    rebuild_recursive ops t pm w = none
  | .node e cs, pm, w, e0 => by
    intro hmem hnone
    rw [rebuild_recursive]
    cases hw : w.transform e with
    | none => rfl
    | some t0 =>
      have he0 : e0 ∈ treeListEntities cs := by
        have : e0 ∈ e :: treeListEntities cs := by
          simpa [treeEntities] using hmem
        rcases List.mem_cons.mp this with rfl | h'
        · rw [hw] at hnone; cases hnone
        · exact h'
      refine rebuildChildren_fail ops cs _ _ e0 he0 ?_
      have hfo := writeGlobal_frame w e (applyPM ops pm (t0.matrix ops))
      have := frameOk_isSome hfo e0
      rw [hnone] at this
      simp only [Option.isSome_none] at this
      cases hcase : (writeGlobal w e (applyPM ops pm (t0.matrix ops))).transform e0 with
      | none => rfl
      | some tt => rw [hcase] at this; simp at this
theorem rebuildChildren_fail (ops : Mat4Ops V Q M) :
    ∀ (ts : List TreeNode) (pm : Option M) (w : World V Q M) (e0 : Entity),
    e0 ∈ treeListEntities ts → w.transform e0 = none →
    rebuildChildren ops ts pm w = none
  | [], pm, w, e0 => by
    intro hmem _
    simp [treeListEntities] at hmem
  | t :: ts, pm, w, e0 => by
    intro hmem hnone
    rw [rebuildChildren]
    rw [treeListEntities, List.mem_append] at hmem
    rcases hmem with h1 | h2
    · rw [rebuild_fail ops t pm w e0 h1 hnone]
    · cases hr : rebuild_recursive ops t pm w with
      | none => rfl
      | some w' =>
        refine rebuildChildren_fail ops ts pm w' e0 h2 ?_
        have := frameOk_isSome (rebuild_frame ops t pm w w' hr) e0
        rw [hnone] at this
        simp only [Option.isSome_none] at this
        cases hcase : w'.transform e0 with
        | none => rfl
        | some tt => rw [hcase] at this; simp at this
end

mutual
theorem globalOk_congr (ops : Mat4Ops V Q M) :
    ∀ (t : TreeNode) (pm : Option M) (w0 w0' u : World V Q M),
    (∀ e, localOf ops w0 e = localOf ops w0' e) →
    GlobalOk ops w0 u t pm → GlobalOk ops w0' u t pm
  | .node e cs, pm, w0, w0', u => by
    intro hl h
    rw [GlobalOk] at h ⊢
    rw [← hl e]
    cases hle : localOf ops w0 e with
    | none => rw [hle] at h; exact h.elim
    | some l =>
      rw [hle] at h
      exact ⟨h.1, globalOkList_congr ops cs _ w0 w0' u hl h.2⟩
theorem globalOkList_congr (ops : Mat4Ops V Q M) :
    ∀ (ts : List TreeNode) (pm : Option M) (w0 w0' u : World V Q M),
    (∀ e, localOf ops w0 e = localOf ops w0' e) →
    GlobalOkList ops w0 u ts pm → GlobalOkList ops w0' u ts pm
  | [], pm, w0, w0', u => by
    intro _ _
    rw [GlobalOkList]
    trivial
  | t :: ts, pm, w0, w0', u => by
    intro hl h
    rw [GlobalOkList] at h ⊢
    exact ⟨globalOk_congr ops t pm w0 w0' u hl h.1,
      globalOkList_congr ops ts pm w0 w0' u hl h.2⟩
end

mutual
theorem globalOk_stable (ops : Mat4Ops V Q M) :
    ∀ (t : TreeNode) (pm : Option M) (w0 u u' : World V Q M),
    (∀ x ∈ treeEntities t, globalOf u' x = globalOf u x) →
    GlobalOk ops w0 u t pm → GlobalOk ops w0 u' t pm
  | .node e cs, pm, w0, u, u' => by
    intro hg h
    rw [GlobalOk] at h ⊢
    cases hle : localOf ops w0 e with
    | none => rw [hle] at h; exact h.elim
    | some l =>
      rw [hle] at h
      refine ⟨?_, ?_⟩
      · rw [hg e (by simp [treeEntities])]
        exact h.1
      · refine globalOkList_stable ops cs _ w0 u u' ?_ h.2
        intro x hx
        exact hg x (by simp [treeEntities, hx])
theorem globalOkList_stable (ops : Mat4Ops V Q M) :
    ∀ (ts : List TreeNode) (pm : Option M) (w0 u u' : World V Q M),
    (∀ x ∈ treeListEntities ts, globalOf u' x = globalOf u x) →
    GlobalOkList ops w0 u ts pm → GlobalOkList ops w0 u' ts pm
  | [], pm, w0, u, u' => by
    intro _ h
    exact h
  | t :: ts, pm, w0, u, u' => by
    intro hg h
    rw [GlobalOkList] at h ⊢
    refine ⟨globalOk_stable ops t pm w0 u u' ?_ h.1,
      globalOkList_stable ops ts pm w0 u u' ?_ h.2⟩
    · intro x hx
      exact hg x (by simp [treeListEntities, hx])
    · intro x hx
      exact hg x (by simp [treeListEntities, hx])
end

theorem globalOf_of_transform_eq {w u : World V Q M} {e : Entity}
    (h : u.transform e = w.transform e) : globalOf u e = globalOf w e := by
  unfold globalOf
  rw [h]

mutual
theorem rebuild_values (ops : Mat4Ops V Q M) :
    ∀ (t : TreeNode) (pm : Option M) (w u : World V Q M),
    (treeEntities t).Nodup →
    rebuild_recursive ops t pm w = some u → GlobalOk ops w u t pm
  | .node e cs, pm, w, u => by
    intro hnd h
    rw [rebuild_recursive] at h
    cases hw : w.transform e with
    | none => rw [hw] at h; cases h
    | some t0 =>
      rw [hw] at h
      have hle : localOf ops w e = some (t0.matrix ops) := by
        unfold localOf
        rw [hw]
        rfl
      have hnd' : (treeListEntities cs).Nodup ∧ e ∉ treeListEntities cs := by
        rw [treeEntities] at hnd
        exact ⟨(List.nodup_cons.mp hnd).2, (List.nodup_cons.mp hnd).1⟩
      rw [GlobalOk, hle]
      have hfc := rebuildChildren_frame ops cs (some (applyPM ops pm (t0.matrix ops)))
        (writeGlobal w e (applyPM ops pm (t0.matrix ops))) u h
      refine ⟨?_, ?_⟩
      · rw [globalOf_of_transform_eq (hfc.2.2.2.2.2.2.2 e hnd'.2)]
        exact writeGlobal_globalOf_self w e _ (by rw [hw]; rfl)
      · have hlist := rebuildChildren_values ops cs (some (applyPM ops pm (t0.matrix ops)))
          (writeGlobal w e (applyPM ops pm (t0.matrix ops))) u hnd'.1 h
        refine globalOkList_congr ops cs _ _ w u ?_ hlist
        intro x
        exact frameOk_localOf (writeGlobal_frame w e (applyPM ops pm (t0.matrix ops))) x
theorem rebuildChildren_values (ops : Mat4Ops V Q M) :
    ∀ (ts : List TreeNode) (pm : Option M) (w u : World V Q M),
    (treeListEntities ts).Nodup →
    rebuildChildren ops ts pm w = some u → GlobalOkList ops w u ts pm
  | [], pm, w, u => by
    intro _ _
    rw [GlobalOkList]
    trivial
  | t :: ts, pm, w, u => by
    intro hnd h
    rw [rebuildChildren] at h
    cases hr : rebuild_recursive ops t pm w with
    | none => rw [hr] at h; cases h
    | some w2 =>
      rw [hr] at h
      rw [treeListEntities, List.nodup_append] at hnd
      obtain ⟨hnd1, hnd2, hdisj⟩ := hnd
      have hfts := rebuildChildren_frame ops ts pm w2 u h
      rw [GlobalOkList]
      refine ⟨?_, ?_⟩
      · refine globalOk_stable ops t pm w w2 u ?_ (rebuild_values ops t pm w w2 hnd1 hr)
        intro x hx
        refine globalOf_of_transform_eq (hfts.2.2.2.2.2.2.2 x ?_)
        exact fun hmem => hdisj hx hmem
      · have hlist := rebuildChildren_values ops ts pm w2 u hnd2 h
        refine globalOkList_congr ops ts _ _ w u ?_ hlist
        intro x
        exact frameOk_localOf (rebuild_frame ops t pm w w2 hr) x
end

theorem rebuildForest_frame (ops : Mat4Ops V Q M) :
    ∀ (ts : List TreeNode) (w u : World V Q M),
    rebuildForest ops ts w = some u → FrameOk w u (treeListEntities ts) := by
  intro ts
  induction ts with
  | nil =>
    intro w u h
    rw [rebuildForest] at h
    obtain rfl := Option.some.injEq .. ▸ h
    exact frameOk_refl _ _
  | cons t ts ih =>
    intro w u h
    rw [rebuildForest] at h
    cases hr : rebuild_recursive ops t none w with
    | none => rw [hr] at h; cases h
    | some w2 =>
      rw [hr] at h
      have := frameOk_trans (rebuild_frame ops t none w w2 hr) (ih w2 u h)
      simpa [treeListEntities] using this

theorem rebuildForest_total (ops : Mat4Ops V Q M) :
    ∀ (ts : List TreeNode) (w : World V Q M),
    (∀ e ∈ treeListEntities ts, (w.transform e).isSome) →
    (rebuildForest ops ts w).isSome := by
  intro ts
  induction ts with
  | nil =>
    intro w _
    rw [rebuildForest]
    rfl
  | cons t ts ih =>
    intro w hp
    rw [rebuildForest]
    have h1 : (rebuild_recursive ops t none w).isSome := by
      refine rebuild_total ops t none w ?_
      intro x hx
      exact hp x (by simp [treeListEntities, hx])
    cases hr : rebuild_recursive ops t none w with
    | none => rw [hr] at h1; simp at h1
    | some w2 =>
      refine ih w2 ?_
      intro x hx
      rw [frameOk_isSome (rebuild_frame ops t none w w2 hr) x]
      exact hp x (by simp [treeListEntities, hx])

theorem rebuildForest_fail (ops : Mat4Ops V Q M) :
    ∀ (ts : List TreeNode) (w : World V Q M) (e0 : Entity),
    e0 ∈ treeListEntities ts → w.transform e0 = none →
    rebuildForest ops ts w = none := by
  intro ts
  induction ts with
  | nil =>
    intro w e0 hmem _
    simp [treeListEntities] at hmem
  | cons t ts ih =>
    intro w e0 hmem hnone
    rw [rebuildForest]
    rw [treeListEntities, List.mem_append] at hmem
    rcases hmem with h1 | h2
    · rw [rebuild_fail ops t none w e0 h1 hnone]
    · cases hr : rebuild_recursive ops t none w with
      | none => rfl
      | some w2 =>
        refine ih w2 e0 h2 ?_
        have := frameOk_isSome (rebuild_frame ops t none w w2 hr) e0
        rw [hnone] at this
        simp only [Option.isSome_none] at this
        cases hcase : w2.transform e0 with
        | none => rfl
        | some tt => rw [hcase] at this; simp at this

theorem rebuildForest_values (ops : Mat4Ops V Q M) :
    ∀ (ts : List TreeNode) (w u : World V Q M),
    (treeListEntities ts).Nodup →
    rebuildForest ops ts w = some u → ∀ t ∈ ts, GlobalOk ops w u t none := by
  intro ts
  induction ts with
  | nil =>
    intro w u _ _ t ht
    cases ht
  | cons t0 ts ih =>
    intro w u hnd h t ht
    rw [rebuildForest] at h
    cases hr : rebuild_recursive ops t0 none w with
    | none => rw [hr] at h; cases h
    | some w2 =>
      rw [hr] at h
      rw [treeListEntities, List.nodup_append] at hnd
      obtain ⟨hnd1, hnd2, hdisj⟩ := hnd
      have hfts := rebuildForest_frame ops ts w2 u h
      rcases List.mem_cons.mp ht with rfl | ht'
      · refine globalOk_stable ops t none w w2 u ?_ (rebuild_values ops t none w w2 hnd1 hr)
        intro x hx
        refine globalOf_of_transform_eq (hfts.2.2.2.2.2.2.2 x ?_)
        exact fun hmem => hdisj hx hmem
      · have := ih w2 u hnd2 h t ht'
        refine globalOk_congr ops t none w2 w u ?_ this
        intro x
        exact frameOk_localOf (rebuild_frame ops t0 none w w2 hr) x

theorem run_now_frame (ops : Mat4Ops V Q M) (w w' : World V Q M)
    (h : run_now ops w = some w') :
    FrameOk w w' (forestEntities (buildForest w).1) := by
  unfold run_now at h
  exact rebuildForest_frame ops _ w w' h

theorem run_now_presence (ops : Mat4Ops V Q M) (w w' : World V Q M)
    (h : run_now ops w = some w') :
    ∀ e ∈ forestEntities (buildForest w).1, (w.transform e).isSome := by
  intro e he
  cases hcase : w.transform e with
  | some t => rfl
  | none =>
    unfold run_now at h
    rw [rebuildForest_fail ops _ w e he hcase] at h
    cases h

theorem buildForest_nodup (w : World V Q M) (rank : Entity → Nat)
    (hr : ParentRank w rank) : (forestEntities (buildForest w).1).Nodup := by
  obtain ⟨⟨hnd, _, _⟩, _⟩ := buildForest_inv w rank hr
  rw [List.nodup_iff_count_le_one]
  exact hnd

theorem run_now_global_ok (ops : Mat4Ops V Q M) (w : World V Q M)
    (rank : Entity → Nat) (hr : ParentRank w rank) (w' : World V Q M)
    (h : run_now ops w = some w') :
    ∀ p ∈ (buildForest w).1, GlobalOk ops w w' p.2 none := by
  intro p hp
  have hnd : (treeListEntities ((buildForest w).1.map Prod.snd)).Nodup :=
    buildForest_nodup w rank hr
  exact rebuildForest_values ops _ w w' hnd h p.2 (List.mem_map_of_mem _ hp)

/-- Two store states agreeing on everything the tick reads: entity
list, parent tags, change flags, and the translation/rotation/scale
fields — the stored global matrices may differ. -/
def Agree (w w' : World V Q M) : Prop :=
  w'.entities = w.entities ∧ w'.parentTag = w.parentTag
  ∧ w'.changedParent = w.changedParent ∧ w'.changedTransform = w.changedTransform
  ∧ (∀ e, (w'.transform e).map (fun t => t.translation)
      = (w.transform e).map (fun t => t.translation))
  ∧ (∀ e, (w'.transform e).map (fun t => t.rotation)
      = (w.transform e).map (fun t => t.rotation))
  ∧ (∀ e, (w'.transform e).map (fun t => t.scale)
      = (w.transform e).map (fun t => t.scale))

theorem agree_of_frameOk {w u : World V Q M} {S : List Entity} (hf : FrameOk w u S) :
    Agree w u := by
  obtain ⟨a, b, c, d, e, f, g, _⟩ := hf
  exact ⟨a, b, c, d, e, f, g⟩

theorem agree_isSome {w w' : World V Q M} (hA : Agree w w') (e : Entity) :
    (w'.transform e).isSome = (w.transform e).isSome := by
  have := hA.2.2.2.2.1 e
  cases hu : w'.transform e <;> cases hw : w.transform e <;>
    rw [hu, hw] at this <;> simp_all

theorem agree_transform_some {ops : Mat4Ops V Q M} {w w' : World V Q M}
    (hA : Agree w w') {e : Entity} {t : Transform V Q M} (h : w.transform e = some t) :
    ∃ t', w'.transform e = some t' ∧ t'.matrix ops = t.matrix ops := by
  have h5 := hA.2.2.2.2.1 e
  have h6 := hA.2.2.2.2.2.1 e
  have h7 := hA.2.2.2.2.2.2 e
  rw [h] at h5 h6 h7
  cases hu : w'.transform e with
  | none => rw [hu] at h5; simp at h5
  | some t' =>
    rw [hu] at h5 h6 h7
    simp only [Option.map_some', Option.some.injEq] at h5 h6 h7
    refine ⟨t', rfl, ?_⟩
    unfold Transform.matrix
    rw [h5, h6, h7]

theorem agree_childrenOf {w w' : World V Q M} (hA : Agree w w') (p : Entity) :
    childrenOf w' p = childrenOf w p := by
  unfold childrenOf
  rw [hA.1]
  refine List.filter_congr ?_
  intro e _
  rw [agree_isSome hA e, hA.2.1]

theorem agree_candidates {w w' : World V Q M} (hA : Agree w w') :
    candidates w' = candidates w := by
  unfold candidates changedParentQuery changedTransformQuery
  rw [hA.1]
  congr 1
  · refine List.filter_congr ?_
    intro e _
    rw [agree_isSome hA e, hA.2.1, hA.2.2.1]
  · refine List.filter_congr ?_
    intro e _
    rw [agree_isSome hA e, hA.2.2.2.1]

theorem exploreLoopF_congr {w w' : World V Q M} (hA : Agree w w') :
    ∀ (fuel : Nat) (children : List Entity) (acc : List TreeNode)
      (forest : Forest) (visited : List Entity),
    exploreLoopF w' fuel children acc forest visited
      = exploreLoopF w fuel children acc forest visited := by
  intro fuel
  induction fuel with
  | zero =>
    intro children acc forest visited
    rfl
  | succ f ih =>
    intro children acc forest visited
    cases children with
    | nil => rfl
    | cons c rest =>
      show (match kvTake c forest with
        | some (tree, forest') => (acc ++ [tree], forest', [])
        | none =>
          if c ∈ visited then (acc, forest, [])
          else
            let r := exploreLoopF w' f (childrenOf w' c) [] forest (c :: visited)
            let r2 := exploreLoopF w' f rest
              (acc ++ [TreeNode.node c r.1]) r.2.1 (r.2.2 ++ c :: visited)
            (r2.1, r2.2.1, r2.2.2 ++ r.2.2 ++ [c]))
        = (match kvTake c forest with
        | some (tree, forest') => (acc ++ [tree], forest', [])
        | none =>
          if c ∈ visited then (acc, forest, [])
          else
            let r := exploreLoopF w f (childrenOf w c) [] forest (c :: visited)
            let r2 := exploreLoopF w f rest
              (acc ++ [TreeNode.node c r.1]) r.2.1 (r.2.2 ++ c :: visited)
            (r2.1, r2.2.1, r2.2.2 ++ r.2.2 ++ [c]))
      cases hkv : kvTake c forest with
      | some pr => rfl
      | none =>
        by_cases hcv : c ∈ visited
        · simp [hcv]
        · simp only [hcv, if_false]
          rw [agree_childrenOf hA c, ih]
          rw [ih]

theorem explore_tree_dfsF_congr {w w' : World V Q M} (hA : Agree w w') (fuel : Nat)
    (e : Entity) (forest : Forest) (visited : List Entity) :
    explore_tree_dfsF w' fuel e forest visited = explore_tree_dfsF w fuel e forest visited := by
  unfold explore_tree_dfsF
  rw [agree_childrenOf hA e, exploreLoopF_congr hA]

theorem buildForestOnF_congr {w w' : World V Q M} (hA : Agree w w') (fuel : Nat)
    (cs : List Entity) :
    buildForestOnF w' fuel cs = buildForestOnF w fuel cs := by
  unfold buildForestOnF
  have key : ∀ s : Forest × List Entity,
      cs.foldl (fun s e => explore_tree_dfsF w' fuel e s.1 s.2) s
        = cs.foldl (fun s e => explore_tree_dfsF w fuel e s.1 s.2) s := by
    induction cs with
    | nil => intro s; rfl
    | cons a t iht =>
      intro s
      simp only [List.foldl_cons]
      rw [explore_tree_dfsF_congr hA fuel a s.1 s.2]
      exact iht _
  exact key _

theorem buildForest_congr {w w' : World V Q M} (hA : Agree w w') :
    buildForest w' = buildForest w := by
  have hfuel : (w'.entities.length + 1) * (w'.entities.length + 1)
      = (w.entities.length + 1) * (w.entities.length + 1) := by
    rw [hA.1]
  rw [← buildForestF_eq w' ((w'.entities.length + 1) * (w'.entities.length + 1)) le_rfl,
    ← buildForestF_eq w ((w.entities.length + 1) * (w.entities.length + 1)) le_rfl]
  unfold buildForestF
  rw [agree_candidates hA, hfuel, buildForestOnF_congr hA]

theorem writeGlobal_map_field {A : Type} {w : World V Q M} (e : Entity) (g : M)
    (fld : Transform V Q M → A)
    (hfld : ∀ t : Transform V Q M, fld { t with global_matrix := g } = fld t) :
    ∀ x, ((writeGlobal w e g).transform x).map fld = (w.transform x).map fld := by
  intro x
  unfold writeGlobal
  by_cases hx : x = e
  · simp only [hx, if_pos rfl]
    cases w.transform e with
    | none => rfl
    | some t => simp [hfld t]
  · simp [hx]

theorem agree_writeGlobal {w w' : World V Q M} (hA : Agree w w') (e : Entity) (g : M) :
    Agree (writeGlobal w e g) (writeGlobal w' e g) := by
  obtain ⟨a, b, c, d, h5, h6, h7⟩ := hA
  refine ⟨a, b, c, d, ?_, ?_, ?_⟩
  · intro x
    rw [writeGlobal_map_field e g (fun t => t.translation) (fun t => rfl) x,
      writeGlobal_map_field e g (fun t => t.translation) (fun t => rfl) x]
    exact h5 x
  · intro x
    rw [writeGlobal_map_field e g (fun t => t.rotation) (fun t => rfl) x,
      writeGlobal_map_field e g (fun t => t.rotation) (fun t => rfl) x]
    exact h6 x
  · intro x
    rw [writeGlobal_map_field e g (fun t => t.scale) (fun t => rfl) x,
      writeGlobal_map_field e g (fun t => t.scale) (fun t => rfl) x]
    exact h7 x

mutual
theorem rebuild_congr (ops : Mat4Ops V Q M) :
    ∀ (t : TreeNode) (pm : Option M) (w w' u : World V Q M),
    Agree w w' → rebuild_recursive ops t pm w = some u →
    ∃ u', rebuild_recursive ops t pm w' = some u' ∧ Agree u u'
      ∧ (∀ e ∈ treeEntities t, globalOf u' e = globalOf u e)
  | .node e cs, pm, w, w', u => by
    intro hA h
    rw [rebuild_recursive] at h
    cases hw : w.transform e with
    | none => rw [hw] at h; cases h
    | some t0 =>
      rw [hw] at h
      obtain ⟨t0', hw', hmx⟩ := @agree_transform_some V Q M ops w w' hA e t0 hw
      obtain ⟨u', hu', hAu, hG⟩ := rebuildChildren_congr ops cs
        (some (applyPM ops pm (t0.matrix ops)))
        (writeGlobal w e (applyPM ops pm (t0.matrix ops)))
        (writeGlobal w' e (applyPM ops pm (t0.matrix ops)))
        u (agree_writeGlobal hA e _) h
      refine ⟨u', ?_, hAu, ?_⟩
      · have hstep : rebuild_recursive ops (TreeNode.node e cs) pm w'
            = rebuildChildren ops cs (some (applyPM ops pm (t0'.matrix ops)))
              (writeGlobal w' e (applyPM ops pm (t0'.matrix ops))) := by
          rw [rebuild_recursive, hw']
        rw [hstep, hmx]
        exact hu'
      · intro x hx
        rw [treeEntities, List.mem_cons] at hx
        by_cases hxT : x ∈ treeListEntities cs
        · exact hG x hxT
        · rcases hx with rfl | hx'
          · have hfu := rebuildChildren_frame ops cs _ _ u h
            have hfu' := rebuildChildren_frame ops cs _ _ u' hu'
            rw [globalOf_of_transform_eq (hfu.2.2.2.2.2.2.2 x hxT),
              globalOf_of_transform_eq (hfu'.2.2.2.2.2.2.2 x hxT)]
            rw [writeGlobal_globalOf_self w x _ (by rw [hw]; rfl),
              writeGlobal_globalOf_self w' x _ (by rw [hw']; rfl)]
          · exact absurd hx' hxT
theorem rebuildChildren_congr (ops : Mat4Ops V Q M) :
    ∀ (ts : List TreeNode) (pm : Option M) (w w' u : World V Q M),
    Agree w w' → rebuildChildren ops ts pm w = some u →
    ∃ u', rebuildChildren ops ts pm w' = some u' ∧ Agree u u'
      ∧ (∀ e ∈ treeListEntities ts, globalOf u' e = globalOf u e)
  | [], pm, w, w', u => by
    intro hA h
    rw [rebuildChildren] at h
    obtain rfl := Option.some.injEq .. ▸ h
    refine ⟨w', by rw [rebuildChildren], hA, ?_⟩
    intro e he
    simp [treeListEntities] at he
  | t :: ts, pm, w, w', u => by
    intro hA h
    rw [rebuildChildren] at h
    cases hr : rebuild_recursive ops t pm w with
    | none => rw [hr] at h; cases h
    | some w2 =>
      rw [hr] at h
      obtain ⟨w2', hr', hA2, hG1⟩ := rebuild_congr ops t pm w w' w2 hA hr
      obtain ⟨u', hu', hAu, hG2⟩ := rebuildChildren_congr ops ts pm w2 w2' u hA2 h
      refine ⟨u', ?_, hAu, ?_⟩
      · rw [rebuildChildren, hr']
        exact hu'
      · intro x hx
        rw [treeListEntities, List.mem_append] at hx
        by_cases hxT : x ∈ treeListEntities ts
        · exact hG2 x hxT
        · rcases hx with hx1 | hx2
          · have hfu := rebuildChildren_frame ops ts pm w2 u h
            have hfu' := rebuildChildren_frame ops ts pm w2' u' hu'
            rw [globalOf_of_transform_eq (hfu.2.2.2.2.2.2.2 x hxT),
              globalOf_of_transform_eq (hfu'.2.2.2.2.2.2.2 x hxT)]
            exact hG1 x hx1
          · exact absurd hx2 hxT
end

theorem rebuildForest_congr (ops : Mat4Ops V Q M) :
    ∀ (ts : List TreeNode) (w w' u : World V Q M),
    Agree w w' → rebuildForest ops ts w = some u →
    ∃ u', rebuildForest ops ts w' = some u' ∧ Agree u u'
      ∧ (∀ e ∈ treeListEntities ts, globalOf u' e = globalOf u e) := by
  intro ts
  induction ts with
  | nil =>
    intro w w' u hA h
    rw [rebuildForest] at h
    obtain rfl := Option.some.injEq .. ▸ h
    refine ⟨w', by rw [rebuildForest], hA, ?_⟩
    intro e he
    simp [treeListEntities] at he
  | cons t ts ih =>
    intro w w' u hA h
    rw [rebuildForest] at h
    cases hr : rebuild_recursive ops t none w with
    | none => rw [hr] at h; cases h
    | some w2 =>
      rw [hr] at h
      obtain ⟨w2', hr', hA2, hG1⟩ := rebuild_congr ops t none w w' w2 hA hr
      obtain ⟨u', hu', hAu, hG2⟩ := ih w2 w2' u hA2 h
      refine ⟨u', ?_, hAu, ?_⟩
      · rw [rebuildForest, hr']
        exact hu'
      · intro x hx
        rw [treeListEntities, List.mem_append] at hx
        by_cases hxT : x ∈ treeListEntities ts
        · exact hG2 x hxT
        · rcases hx with hx1 | hx2
          · have hfu := rebuildForest_frame ops ts w2 u h
            have hfu' := rebuildForest_frame ops ts w2' u' hu'
            rw [globalOf_of_transform_eq (hfu.2.2.2.2.2.2.2 x hxT),
              globalOf_of_transform_eq (hfu'.2.2.2.2.2.2.2 x hxT)]
            exact hG1 x hx1
          · exact absurd hx2 hxT

theorem run_now_congr (ops : Mat4Ops V Q M) (w w' u : World V Q M)
    (hA : Agree w w') (h : run_now ops w = some u) :
    ∃ u', run_now ops w' = some u' ∧ Agree u u'
      ∧ (∀ e ∈ forestEntities (buildForest w).1, globalOf u' e = globalOf u e) := by
  unfold run_now at h ⊢
  rw [buildForest_congr hA]
  exact rebuildForest_congr ops _ w w' u hA h

theorem exploreLoop_acc_extends (w : World V Q M) :
    ∀ (n : Nat) (children : List Entity) (h : ∀ c ∈ children, c ∈ w.entities)
      (acc : List TreeNode) (forest : Forest) (visited : List Entity),
      unvisitedCount w visited * (w.entities.length + 1) + children.length < n →
      ∃ s, (exploreLoop w children h acc forest visited).1 = acc ++ s := by
  intro n
  induction n using Nat.strong_induction_on with
  | _ n IH =>
    intro children h acc forest visited hn
    match children with
    | [] =>
      exact ⟨[], by rw [exploreLoop_nil]; simp⟩
    | c :: rest =>
      cases hkv : kvTake c forest with
      | some pr =>
        obtain ⟨tree, f'⟩ := pr
        exact ⟨[tree], by rw [exploreLoop_cons_take w c rest h acc forest visited tree f' hkv]⟩
      | none =>
        by_cases hcv : c ∈ visited
        · exact ⟨[], by
            rw [exploreLoop_cons_visited w c rest h acc forest visited hkv hcv]; simp⟩
        · have key : ∀ l : List Entity,
              unvisitedCount w (l ++ c :: visited) ≤ unvisitedCount w visited := by
            intro l
            refine le_trans (unvisitedCount_append_le w l (c :: visited)) ?_
            simpa using unvisitedCount_append_le w [c] visited
          have hm2 : unvisitedCount w
                ((exploreLoop w (childrenOf w c) (fun x hx => List.mem_of_mem_filter hx)
                  [] forest (c :: visited)).2.2 ++ c :: visited) * (w.entities.length + 1)
                + rest.length
              < unvisitedCount w visited * (w.entities.length + 1) + (c :: rest).length := by
            have key2 := key ((exploreLoop w (childrenOf w c)
              (fun x hx => List.mem_of_mem_filter hx) [] forest (c :: visited)).2.2)
            have := Nat.mul_le_mul_right (w.entities.length + 1) key2
            simp only [List.length_cons]
            omega
          obtain ⟨s, hs⟩ := IH
            (unvisitedCount w visited * (w.entities.length + 1) + (c :: rest).length) hn
            rest (fun x hx => h x (List.mem_cons_of_mem c hx))
            (acc ++ [TreeNode.node c
              (exploreLoop w (childrenOf w c) (fun x hx => List.mem_of_mem_filter hx)
                [] forest (c :: visited)).1])
            (exploreLoop w (childrenOf w c) (fun x hx => List.mem_of_mem_filter hx)
                [] forest (c :: visited)).2.1
            ((exploreLoop w (childrenOf w c) (fun x hx => List.mem_of_mem_filter hx)
                [] forest (c :: visited)).2.2 ++ c :: visited) hm2
          refine ⟨[TreeNode.node c
              (exploreLoop w (childrenOf w c) (fun x hx => List.mem_of_mem_filter hx)
                [] forest (c :: visited)).1] ++ s, ?_⟩
          rw [exploreLoop_cons_none w c rest h acc forest visited hkv hcv]
          dsimp only
          rw [hs, List.append_assoc]

theorem explore_tree_dfs_visited_mono (w : World V Q M) (e : Entity) (f : Forest)
    (v : List Entity) : ∀ x ∈ v, x ∈ (explore_tree_dfs w e f v).2 := by
  intro x hx
  unfold explore_tree_dfs
  by_cases hev : e ∈ v
  · simpa [hev] using hx
  · simp only [if_neg hev]
    simp [hx]

theorem explore_tree_dfs_visited_self (w : World V Q M) (e : Entity) (f : Forest)
    (v : List Entity) : e ∈ (explore_tree_dfs w e f v).2 := by
  unfold explore_tree_dfs
  by_cases hev : e ∈ v
  · simpa [hev] using hev
  · simp [hev]

theorem foldl_visited_mono (w : World V Q M) (cs : List Entity) :
    ∀ (s : Forest × List Entity), ∀ x ∈ s.2,
      x ∈ (cs.foldl (fun s e => explore_tree_dfs w e s.1 s.2) s).2 := by
  induction cs with
  | nil => intro s x hx; exact hx
  | cons c rest ih =>
    intro s x hx
    simp only [List.foldl_cons]
    exact ih _ x (explore_tree_dfs_visited_mono w c s.1 s.2 x hx)

theorem foldl_visited_all (w : World V Q M) (cs : List Entity) :
    ∀ (s : Forest × List Entity), ∀ e ∈ cs,
      e ∈ (cs.foldl (fun s e => explore_tree_dfs w e s.1 s.2) s).2 := by
  induction cs with
  | nil => intro s e he; cases he
  | cons c rest ih =>
    intro s e he
    simp only [List.foldl_cons]
    rcases List.mem_cons.mp he with rfl | he'
    · exact foldl_visited_mono w rest _ e (explore_tree_dfs_visited_self w e s.1 s.2)
    · exact ih _ e he'

theorem explore_tree_dfs_noop (w : World V Q M) (e : Entity) (f : Forest)
    (v : List Entity) (hev : e ∈ v) : explore_tree_dfs w e f v = (f, v) := by
  unfold explore_tree_dfs
  rw [if_pos hev]

theorem foldl_explore_noop (w : World V Q M) :
    ∀ (ds : List Entity) (s : Forest × List Entity), (∀ e ∈ ds, e ∈ s.2) →
      ds.foldl (fun s e => explore_tree_dfs w e s.1 s.2) s = s := by
  intro ds
  induction ds with
  | nil => intro s _; rfl
  | cons d ds ih =>
    intro s hall
    simp only [List.foldl_cons]
    rw [explore_tree_dfs_noop w d s.1 s.2 (hall d (List.mem_cons_self d ds))]
    exact ih s (fun e he => hall e (List.mem_cons_of_mem d he))

/-- Free-monoid matrix model for concrete runs: a matrix is a list of
symbols, multiplication is concatenation, and the three local-matrix
factors of entity data `n` are distinct symbols, so compositions stay
fully visible in the result. -/
def listOps : Mat4Ops Nat Nat (List Nat) where
  mul := List.append
  translateM := fun n => [3 * n]
  rotateM := fun n => [3 * n + 1]
  scaleM := fun n => [3 * n + 2]

/-- A dirty three-entity chain: 1's parent is 0 and 2's parent is 1,
all three transforms written this tick. -/
def Wchain : World Nat Nat (List Nat) where
  entities := [0, 1, 2]
  transform := fun e => some ⟨e, e, e, []⟩
  parentTag := fun e => if e = 1 then some 0 else if e = 2 then some 1 else none
  changedParent := fun _ => false
  changedTransform := fun _ => true

/-- The store after one tick on `Wchain`. -/
def WchainOut : World Nat Nat (List Nat) :=
  (run_nowF listOps Wchain 16).get (by decide)

/-- The store after a second tick on `WchainOut`. -/
def WchainOut2 : World Nat Nat (List Nat) :=
  (run_nowF listOps WchainOut 16).get (by decide)

/-- A world exercising the early `return` of `explore_dfs`: entity 0
has the two children 1 and 2; 1 is offered first by the changed-parent
scan and becomes a forest root, so exploring 0 splices 1's tree in and
returns before ever examining the sibling 2. -/
def Wsib : World Unit Unit Unit where
  entities := [0, 1, 2]
  transform := fun _ => some ⟨(), (), (), ()⟩
  parentTag := fun e => if e = 1 then some 0 else if e = 2 then some 0 else none
  changedParent := fun e => e == 1
  changedTransform := fun e => e == 0

/-- A world whose only entity just lost its parent tag: the parent
change flag is set but the tag is gone and the transform unwritten. -/
def Wrem : World Unit Unit Unit where
  entities := [0]
  transform := fun _ => some ⟨(), (), (), ()⟩
  parentTag := fun _ => none
  changedParent := fun _ => true
  changedTransform := fun _ => false

/-- A two-entity parent cycle (0's parent is 1, 1's parent is 0), one
entity dirty. -/
def Wcyc : World Unit Unit Unit where
  entities := [0, 1]
  transform := fun _ => some ⟨(), (), (), ()⟩
  parentTag := fun e => if e = 0 then some 1 else some 0
  changedParent := fun _ => false
  changedTransform := fun e => e == 0

/-- A world whose entity 0 carries no `Transform` component. -/
def Wmiss : World Nat Nat (List Nat) where
  entities := [0]
  transform := fun _ => none
  parentTag := fun _ => none
  changedParent := fun _ => false
  changedTransform := fun _ => false

/-- C1: for every tree in the forest, Matrix Recompute sets the root
node's global matrix to its local matrix (computed from the entity's
current translation/rotation/scale), and every non-root node's global
matrix to the tree-parent's already-computed global matrix multiplied
on the left with the node's own local matrix, with every parent
written before any of its children is computed — the recursion that
the `GlobalOk` predicate states. -/
theorem c1_recompute_composes (ops : Mat4Ops V Q M) (w : World V Q M)
    (rank : Entity → Nat) (hr : ParentRank w rank) (w' : World V Q M)
    (h : run_now ops w = some w') :
    ∀ p ∈ (buildForest w).1, GlobalOk ops w w' p.2 none :=
  run_now_global_ok ops w rank hr w' h

theorem c1_recompute_composes_witness :
    ParentRank Wchain id ∧ run_now listOps Wchain = some WchainOut
    ∧ ∀ p ∈ (buildForest Wchain).1, GlobalOk listOps Wchain WchainOut p.2 none := by
  have h1 : ParentRank Wchain id := by decide
  have h2 : run_now listOps Wchain = some WchainOut := by
    rw [← run_nowF_eq listOps Wchain 16 (by decide)]
    exact (Option.some_get _).symm
  exact ⟨h1, h2, c1_recompute_composes listOps Wchain id h1 WchainOut h2⟩

/-- C2: for an acyclic parent graph (witnessed by a rank function that
decreases from child to parent), after Forest Construction no entity
appears in more than one tree, none appears twice within a tree (the
flattened entity list of the whole forest has no duplicates), and
every entity returned by either discovery scan appears in the forest. -/
theorem c2_partition (w : World V Q M) (rank : Entity → Nat)
    (hr : ParentRank w rank) :
    (forestEntities (buildForest w).1).Nodup
    ∧ ∀ e ∈ candidates w, e ∈ forestEntities (buildForest w).1 := by
  obtain ⟨⟨hnd, hv, _⟩, hall⟩ := buildForest_inv w rank hr
  refine ⟨?_, ?_⟩
  · rw [List.nodup_iff_count_le_one]
    exact hnd
  · intro e he
    exact (hv e).mp (hall e he)

theorem c2_partition_witness :
    ParentRank Wchain id ∧
    ((forestEntities (buildForest Wchain).1).Nodup
      ∧ ∀ e ∈ candidates Wchain, e ∈ forestEntities (buildForest Wchain).1) :=
  ⟨by decide, c2_partition Wchain id (by decide)⟩

/-- C7: Forest Construction terminates on every input, cyclic parent
graphs included: the fuelled mirror of the exploration — whose
recursion depth is explicitly cut off by its fuel — already computes
the very same forest once the fuel reaches a bound determined by the
entity count alone, because every recursive descent permanently marks
a previously unvisited entity, so the visited set bounds the
recursion.  No acyclicity is assumed. -/
theorem c7_terminating (w : World V Q M) (fuel : Nat)
    (hf : (w.entities.length + 1) * (w.entities.length + 1) ≤ fuel) :
    buildForestF w fuel = buildForest w :=
  buildForestF_eq w fuel hf

theorem c7_terminating_witness :
    (Wcyc.entities.length + 1) * (Wcyc.entities.length + 1) ≤ 9
    ∧ buildForestF Wcyc 9 = buildForest Wcyc :=
  ⟨by decide, c7_terminating Wcyc 9 (by decide)⟩

/-- C3 counterexample: in `Wsib` entity 0 has the two children 1 and 2
(both holding transforms, with parent tag 0), yet after construction
the forest contains only 0 and 1 — handling child 1 by splice ended
0's exploration and child 2, though unvisited and no forest root, was
never examined, contradicting the claim that remaining children are
still examined. -/
theorem c3_counterexample :
    childrenOf Wsib 0 = [1, 2] ∧ Wsib.parentTag 2 = some 0
    ∧ forestEntities (buildForest Wsib).1 = [0, 1] := by
  refine ⟨by decide, rfl, ?_⟩
  rw [← buildForestF_eq Wsib 16 (by decide)]
  decide

/-- C3 amended: during depth-first exploration of a node, children of
the node are examined in order only up to the first child that is a
forest root (spliced) or already visited; handling such a child ends
the node's entire exploration, so the result does not depend on the
remaining children at all.  A child that is neither is marked visited,
recursively explored and attached (it ends up among the node's
accumulated children), and exploration continues. -/
theorem c3_amended (w : World V Q M) :
    (∀ (c : Entity) (rest rest' : List Entity)
      (h : ∀ x ∈ c :: rest, x ∈ w.entities) (h' : ∀ x ∈ c :: rest', x ∈ w.entities)
      (acc : List TreeNode) (forest : Forest) (visited : List Entity),
      ((kvTake c forest).isSome ∨ c ∈ visited) →
      exploreLoop w (c :: rest) h acc forest visited
        = exploreLoop w (c :: rest') h' acc forest visited)
    ∧ (∀ (c : Entity) (rest : List Entity)
      (h : ∀ x ∈ c :: rest, x ∈ w.entities)
      (acc : List TreeNode) (forest : Forest) (visited : List Entity),
      kvTake c forest = none → c ∉ visited →
      c ∈ treeListEntities (exploreLoop w (c :: rest) h acc forest visited).1) := by
  constructor
  · intro c rest rest' h h' acc forest visited hstop
    cases hkv : kvTake c forest with
    | some pr =>
      obtain ⟨tree, f'⟩ := pr
      rw [exploreLoop_cons_take w c rest h acc forest visited tree f' hkv,
        exploreLoop_cons_take w c rest' h' acc forest visited tree f' hkv]
    | none =>
      have hvis : c ∈ visited := by
        rcases hstop with hsome | hvis
        · rw [hkv] at hsome
          simp at hsome
        · exact hvis
      rw [exploreLoop_cons_visited w c rest h acc forest visited hkv hvis,
        exploreLoop_cons_visited w c rest' h' acc forest visited hkv hvis]
  · intro c rest h acc forest visited hkv hcv
    obtain ⟨s, hs⟩ := exploreLoop_acc_extends w
      (unvisitedCount w ((exploreLoop w (childrenOf w c)
          (fun x hx => List.mem_of_mem_filter hx) [] forest (c :: visited)).2.2
          ++ c :: visited) * (w.entities.length + 1) + rest.length + 1)
      rest (fun x hx => h x (List.mem_cons_of_mem c hx))
      (acc ++ [TreeNode.node c
        (exploreLoop w (childrenOf w c) (fun x hx => List.mem_of_mem_filter hx)
          [] forest (c :: visited)).1])
      (exploreLoop w (childrenOf w c) (fun x hx => List.mem_of_mem_filter hx)
          [] forest (c :: visited)).2.1
      ((exploreLoop w (childrenOf w c) (fun x hx => List.mem_of_mem_filter hx)
          [] forest (c :: visited)).2.2 ++ c :: visited)
      (Nat.lt_succ_self _)
    rw [exploreLoop_cons_none w c rest h acc forest visited hkv hcv]
    dsimp only
    rw [hs]
    rw [List.append_assoc, treeListEntities_append, treeListEntities_append]
    simp [treeListEntities, treeEntities]

theorem c3_amended_witness :
    (exploreLoop Wsib [1, 2] (by decide) [] [(1, TreeNode.node 1 [])] []
      = exploreLoop Wsib [1] (by decide) [] [(1, TreeNode.node 1 [])] [])
    ∧ (2 : Entity) ∈ treeListEntities (exploreLoop Wsib [2] (by decide) [] [] []).1 :=
  ⟨(c3_amended Wsib).1 1 [2] [] (by decide) (by decide) [] [(1, TreeNode.node 1 [])] []
      (Or.inl (by decide)),
   (c3_amended Wsib).2 2 [] (by decide) [] [] [] rfl (by decide)⟩

/-- C4 counterexample: in `Wrem` entity 0 holds a `Transform`, its
parent relation was removed this tick (change flag set, tag absent)
and its `Transform` was not written — yet the discovery stage offers
no candidates at all, because the first query requires the `Parent`
tag to be present, contradicting the claim that a removed-parent
entity is among the offered candidates. -/
theorem c4_counterexample :
    Wrem.changedParent 0 = true ∧ Wrem.parentTag 0 = none
    ∧ (Wrem.transform 0).isSome = true ∧ 0 ∈ Wrem.entities
    ∧ candidates Wrem = [] :=
  ⟨rfl, rfl, rfl, by decide, by decide⟩

/-- C4 amended: Dirty-Root Discovery offers exactly the entities that
hold a `Transform` and either currently also carry a parent tag whose
relation changed since the previous tick, or whose `Transform` was
written; an entity whose parent relation was removed (and whose
`Transform` was not written) is not offered. -/
theorem c4_amended (w : World V Q M) (e : Entity) :
    e ∈ candidates w ↔ e ∈ w.entities ∧ (w.transform e).isSome = true
      ∧ (((w.parentTag e).isSome = true ∧ w.changedParent e = true)
        ∨ w.changedTransform e = true) := by
  unfold candidates changedParentQuery changedTransformQuery
  rw [List.mem_append, List.mem_filter, List.mem_filter]
  simp only [Bool.and_eq_true]
  tauto

/-- C5 counterexample: on `Wsib`, consuming the changed-transform scan
before the changed-parent scan yields a forest containing entity 2,
while the source's order yields one without it — the final forest is
not independent of the order in which the two scans are consumed. -/
theorem c5_counterexample :
    forestEntities (buildForestOn Wsib
        (changedTransformQuery Wsib ++ changedParentQuery Wsib)).1
      ≠ forestEntities (buildForest Wsib).1 := by
  rw [← buildForestOnF_eq Wsib 16
      (changedTransformQuery Wsib ++ changedParentQuery Wsib) (by decide),
    ← buildForestF_eq Wsib 16 (by decide)]
  decide

/-- C5 amended: an entity encountered as a candidate twice is
processed only on its first encounter — the visited-set check performed
before any exploration begins makes the second encounter a no-op, and
replaying any already-processed candidates leaves the forest unchanged;
however the final forest may depend on the order in which the two
scans' sequences are consumed (see the counterexample). -/
theorem c5_amended (w : World V Q M) :
    (∀ (e : Entity) (forest : Forest) (visited : List Entity), e ∈ visited →
      explore_tree_dfs w e forest visited = (forest, visited))
    ∧ (∀ cs ds : List Entity, (∀ e ∈ ds, e ∈ cs) →
      buildForestOn w (cs ++ ds) = buildForestOn w cs) := by
  constructor
  · intro e forest visited hev
    exact explore_tree_dfs_noop w e forest visited hev
  · intro cs ds hsub
    unfold buildForestOn
    rw [List.foldl_append]
    refine foldl_explore_noop w ds _ ?_
    intro e he
    exact foldl_visited_all w cs ([], []) e (hsub e he)

theorem c5_amended_witness :
    explore_tree_dfs Wsib 1 [] [1] = ([], [1])
    ∧ buildForestOn Wsib ([0, 1] ++ [1]) = buildForestOn Wsib [0, 1] :=
  ⟨(c5_amended Wsib).1 1 [] [1] (by decide),
   (c5_amended Wsib).2 [0, 1] [1] (by decide)⟩

/-- C6: every entity that ends up as the root of a tree in the forest
has its global matrix set to exactly its local matrix by the tick —
the statement carries no assumption at all about the entity's parent
relation, so it holds irrespective of whether the entity actually has
a parent relation pointing to some unchanged ancestor not present in
the forest. -/
theorem c6_forestRoot_local (ops : Mat4Ops V Q M) (w : World V Q M)
    (rank : Entity → Nat) (hr : ParentRank w rank) (w' : World V Q M)
    (h : run_now ops w = some w') :
    ∀ p ∈ (buildForest w).1, globalOf w' p.2.entity = localOf ops w p.2.entity := by
  intro p hp
  have hok := run_now_global_ok ops w rank hr w' h p hp
  cases hm : p.2 with
  | node e cs =>
    rw [hm] at hok
    rw [GlobalOk] at hok
    cases hle : localOf ops w e with
    | none => rw [hle] at hok; exact hok.elim
    | some l =>
      rw [hle] at hok
      rw [TreeNode.entity, hle]
      exact hok.1

theorem c6_forestRoot_local_witness :
    ParentRank Wchain id ∧ run_now listOps Wchain = some WchainOut
    ∧ ∀ p ∈ (buildForest Wchain).1,
        globalOf WchainOut p.2.entity = localOf listOps Wchain p.2.entity := by
  have h1 : ParentRank Wchain id := by decide
  have h2 : run_now listOps Wchain = some WchainOut := by
    rw [← run_nowF_eq listOps Wchain 16 (by decide)]
    exact (Option.some_get _).symm
  exact ⟨h1, h2, c6_forestRoot_local listOps Wchain id h1 WchainOut h2⟩

/-- C8: two ticks in a row with no intervening store mutation leave
every entity's global matrix with the same value after the second run
as after the first — the change-tracking flags are data the tick never
writes, so the second run sees the same dirty set, rebuilds the same
forest from unchanged locals and parent tags, and rewrites the same
values. -/
theorem c8_idempotent (ops : Mat4Ops V Q M) (w w1 w2 : World V Q M)
    (h1 : run_now ops w = some w1) (h2 : run_now ops w1 = some w2) :
    ∀ e, globalOf w2 e = globalOf w1 e := by
  have hA : Agree w w1 := agree_of_frameOk (run_now_frame ops w w1 h1)
  obtain ⟨u', hu', _, hG⟩ := run_now_congr ops w w1 w1 hA h1
  have heq : u' = w2 := by
    have := hu'.symm.trans h2
    exact (Option.some.injEq .. ▸ this)
  subst heq
  intro e
  by_cases he : e ∈ forestEntities (buildForest w).1
  · exact hG e he
  · have hbf : buildForest w1 = buildForest w := buildForest_congr hA
    have hf2 := run_now_frame ops w1 u' h2
    refine globalOf_of_transform_eq (hf2.2.2.2.2.2.2.2 e ?_)
    rw [hbf]
    exact he

theorem c8_idempotent_witness :
    run_now listOps Wchain = some WchainOut
    ∧ run_now listOps WchainOut = some WchainOut2
    ∧ globalOf WchainOut2 2 = globalOf WchainOut 2 := by
  have h1 : run_now listOps Wchain = some WchainOut := by
    rw [← run_nowF_eq listOps Wchain 16 (by decide)]
    exact (Option.some_get _).symm
  have h2 : run_now listOps WchainOut = some WchainOut2 := by
    rw [← run_nowF_eq listOps WchainOut 16 (by decide)]
    exact (Option.some_get _).symm
  exact ⟨h1, h2, c8_idempotent listOps Wchain WchainOut WchainOut2 h1 h2 2⟩

/-- C9: if an entity placed in a tree no longer carries a `Transform`
when Matrix Recompute reaches it, the tick fails fast (`unwrap` panic,
modelled as `none`) rather than skipping the entity; conversely, when
every entity of the constructed forest carries a `Transform`, the
failure branch is unreachable and the tick completes. -/
theorem c9_fail_fast (ops : Mat4Ops V Q M) :
    (∀ (t : TreeNode) (pm : Option M) (w : World V Q M) (e : Entity),
      e ∈ treeEntities t → w.transform e = none →
      rebuild_recursive ops t pm w = none)
    ∧ ∀ w : World V Q M,
      (∀ e ∈ forestEntities (buildForest w).1, (w.transform e).isSome) →
      (run_now ops w).isSome :=
  ⟨fun t pm w e hm hn => rebuild_fail ops t pm w e hm hn,
   fun w hp => rebuildForest_total ops ((buildForest w).1.map Prod.snd) w hp⟩

theorem c9_fail_fast_witness :
    rebuild_recursive listOps (TreeNode.node 0 []) none Wmiss = none
    ∧ (run_now listOps Wchain).isSome :=
  ⟨(c9_fail_fast listOps).1 (TreeNode.node 0 []) none Wmiss 0 (by decide) rfl,
   (c9_fail_fast listOps).2 Wchain (by
      rw [← buildForestF_eq Wchain 16 (by decide)]
      decide)⟩

/-- C10: a tick mutates only the `global_matrix` field: for every
entity the translation, rotation and scale fields and the parent
relation are unchanged, and every entity outside the constructed
forest keeps its whole `Transform` — global matrix included —
unchanged. -/
theorem c10_only_global_written (ops : Mat4Ops V Q M) (w w' : World V Q M)
    (h : run_now ops w = some w') :
    (∀ e, (w'.transform e).map (fun t => t.translation)
      = (w.transform e).map (fun t => t.translation))
    ∧ (∀ e, (w'.transform e).map (fun t => t.rotation)
      = (w.transform e).map (fun t => t.rotation))
    ∧ (∀ e, (w'.transform e).map (fun t => t.scale)
      = (w.transform e).map (fun t => t.scale))
    ∧ w'.parentTag = w.parentTag
    ∧ (∀ e, e ∉ forestEntities (buildForest w).1 → w'.transform e = w.transform e) := by
  have hf := run_now_frame ops w w' h
  exact ⟨hf.2.2.2.2.1, hf.2.2.2.2.2.1, hf.2.2.2.2.2.2.1, hf.2.1, hf.2.2.2.2.2.2.2⟩

theorem c10_only_global_written_witness :
    run_now listOps Wchain = some WchainOut
    ∧ ((∀ e, (WchainOut.transform e).map (fun t => t.translation)
        = (Wchain.transform e).map (fun t => t.translation))
      ∧ (∀ e, (WchainOut.transform e).map (fun t => t.rotation)
        = (Wchain.transform e).map (fun t => t.rotation))
      ∧ (∀ e, (WchainOut.transform e).map (fun t => t.scale)
        = (Wchain.transform e).map (fun t => t.scale))
      ∧ WchainOut.parentTag = Wchain.parentTag
      ∧ (∀ e, e ∉ forestEntities (buildForest Wchain).1 →
          WchainOut.transform e = Wchain.transform e)) := by
  have h2 : run_now listOps Wchain = some WchainOut := by
    rw [← run_nowF_eq listOps Wchain 16 (by decide)]
    exact (Option.some_get _).symm
  exact ⟨h2, c10_only_global_written listOps Wchain WchainOut h2⟩
